import Mathlib

/-!
# Idle-time insertion policies (`include/uni/iip.hpp`)

A shallow embedding of the four idle-time insertion policies of the uniprocessor
analysis (`Null_IIP`, `AER_IIP`, `Precatious_RM_IIP`, `Critical_window_IIP`) and
theorems about what their `latest_start` queries return.

The policies are C++ templates over a type `Time`.  The embedding is generic in
`Time` as well: it asks for an order, `+`, `-`, `0` and the `infinity()` constant
of the time model, and states every further property of the time domain a theorem
relies on as a hypothesis of that theorem.
-/

namespace NP

/-! ## Collaborators of the policies that live outside `iip.hpp` -/

/-- Modelled from the spec: `Time_model::constants<Time>::infinity()`, the infinity
sentinel of the external time domain (spec section 2, "Time Domain").  Nothing is
assumed about it here; theorems that need "infinity is larger than every value" or
"infinity - finite = infinity" carry that as a hypothesis. -/
class Time_model (Time : Type) where
  infinity : Time

export Time_model (infinity)

/-- Modelled from the spec: a closed interval `[a, b]` of time, used for the
scheduling window of a job ("interval containing all times at which it may be
pending"). -/
structure Interval (Time : Type) where
  a : Time
  b : Time
deriving DecidableEq, Repr

/-- Membership of a point in a closed interval (`Interval::contains`). -/
def Interval.contains {Time : Type} [LinearOrder Time] (w : Interval Time) (point : Time) : Bool :=
  decide (w.a ≤ point) && decide (point ≤ w.b)

/-- Modelled from the spec: the job record `Job<Time>` (spec section 3): job id, task
id, priority (lower value = higher precedence), arrival window, deadline, the upper
cost bound and the scheduling window.  Fields carry the names of the accessors that
`iip.hpp` calls. -/
structure Job (Time : Type) where
  get_id : Nat
  get_task_id : Nat
  get_priority : Time
  earliest_arrival : Time
  latest_arrival : Time
  get_deadline : Time
  maximal_cost : Time
  scheduling_window : Interval Time
deriving DecidableEq, Repr

/-- Modelled from the spec: the scheduled set (`Index_set`), a set of job indices
that supports the membership test `contains` only. -/
abbrev Scheduled := List Nat

/-- Modelled from the spec: the read-only engine view `State_space` (spec section 6):
the number of cores, the `incomplete` predicate, the window lookup
`jobs_by_win.lookup(t)` and the multimap `jobs_by_earliest_arrival`, given as the
list of its entries in iteration order (nondecreasing key). -/
structure State_space (Time : Type) where
  num_cores : Nat
  incomplete : Scheduled → Job Time → Bool
  jobs_by_win_lookup : Time → List (Job Time)
  jobs_by_earliest_arrival : List (Time × Job Time)

/-! ## Library and machine-level helpers -/

/-- `std::min(a, b)`: returns `b` when `b < a`, else `a`. -/
def std_min {Time : Type} [LinearOrder Time] (a b : Time) : Time :=
  if b < a then b else a

/-- `std::max(a, b)`: returns `b` when `a < b`, else `a`. -/
def std_max {Time : Type} [LinearOrder Time] (a b : Time) : Time :=
  if a < b then b else a

/-- Conversion of an integer value to `unsigned int` (32 bits): reduction modulo 2^32. -/
def to_unsigned (z : Int) : Nat :=
  (z % 4294967296).toNat

/-- Conversion of an `unsigned int` value to `int` (32 bits, two's complement). -/
def to_int (u : Nat) : Int :=
  if u % 4294967296 < 2147483648 then ((u % 4294967296 : Nat) : Int)
  else ((u % 4294967296 : Nat) : Int) - 4294967296

/-- `std::multimap::upper_bound(t)` followed by iteration to `end()`: the entries
whose key is strictly greater than `t`, for entries stored in nondecreasing key
order. -/
def upper_bound {Time α : Type} [LinearOrder Time] (t : Time) (m : List (Time × α)) :
    List (Time × α) :=
  m.dropWhile (fun e => !decide (t < e.1))

/-- `std::multimap::insert`: the new entry goes to the upper bound of its key, that
is after every entry whose key is not greater. -/
def multimap_insert {Time α : Type} [LinearOrder Time] (e : Time × α) :
    List (Time × α) → List (Time × α)
  | [] => [e]
  | x :: xs => if e.1 < x.1 then e :: x :: xs else x :: multimap_insert e xs

namespace Uniproc

/-! ## `Null_IIP` -/

/-- `Null_IIP::latest_start`. -/
def Null_IIP.latest_start {Time : Type} [Time_model Time]
    (_j : Job Time) (_t : Time) (_as : Scheduled) : Time :=
  infinity

/-! ## `AER_IIP` -/

/-- State of an `AER_IIP` instance: the engine view and the workload. -/
structure AER_IIP (Time : Type) where
  space : State_space Time
  jobs : List (Job Time)

namespace AER_IIP

variable {Time : Type}

/-- `AER_IIP::is_acquisition_phase`: `j.get_id() % 2` converted to `bool`. -/
def is_acquisition_phase (j : Job Time) : Bool :=
  j.get_id % 2 != 0

/-- `AER_IIP::is_restitution_phase`. -/
def is_restitution_phase (j : Job Time) : Bool :=
  !is_acquisition_phase j

/-- The loop of `AER_IIP::busy_cores` from index `i` on, `sum` being the running
counter.  The counter is an exact integer: it is only ever used modulo 2^32 (see
`available_cores`), where wrapping and exact arithmetic agree. -/
def busy_cores_loop (as : Scheduled) : Nat → List (Job Time) → Int → Int
  | _, [], sum => sum
  | i, j :: rest, sum =>
    if as.contains i && is_restitution_phase j then
      busy_cores_loop as (i + 1) rest (sum - 1)
    else if as.contains i && is_acquisition_phase j then
      busy_cores_loop as (i + 1) rest (sum + 1)
    else
      busy_cores_loop as (i + 1) rest sum

/-- `AER_IIP::busy_cores`. -/
def busy_cores (iip : AER_IIP Time) (as : Scheduled) (_t : Time) : Int :=
  busy_cores_loop as 0 iip.jobs 0

/-- `AER_IIP::total_cores`: `space.num_cores` as an `unsigned int`. -/
def total_cores (iip : AER_IIP Time) : Nat :=
  iip.space.num_cores % 4294967296

/-- `AER_IIP::available_cores`: `total_cores() - busy_cores(as, t)` computed in
`unsigned int`. -/
def available_cores (iip : AER_IIP Time) (as : Scheduled) (t : Time) : Nat :=
  to_unsigned ((iip.total_cores : Int) - iip.busy_cores as t)

/-- `AER_IIP::latest_start`. -/
def latest_start [Time_model Time] [Zero Time]
    (iip : AER_IIP Time) (j : Job Time) (t : Time) (as : Scheduled) : Time :=
  let free_cores : Int := to_int (iip.available_cores as t)
  if is_restitution_phase j then
    infinity
  else if free_cores > 0 then
    infinity
  else
    0

/-- The number of workload positions, counted from position `i` for the first job of
`jobs`, that are contained in `as` and whose job satisfies `p`. -/
def count_scheduled (p : Job Time → Bool) (as : Scheduled) (i : Nat)
    (jobs : List (Job Time)) : Nat :=
  ((jobs.enumFrom i).filter (fun e => as.contains e.1 && p e.2)).length

/-- The number `K` of scheduled, unmatched Acquisition jobs: the number of workload
positions in `as` whose job has an odd id, minus the number of workload positions in
`as` whose job has an even id. -/
def unmatched_acquisitions (jobs : List (Job Time)) (as : Scheduled) : Int :=
  (count_scheduled (fun j => decide (j.get_id % 2 = 1)) as 0 jobs : Int)
    - (count_scheduled (fun j => decide (j.get_id % 2 = 0)) as 0 jobs : Int)

end AER_IIP

/-! ## `Precatious_RM_IIP` -/

/-- State of a `Precatious_RM_IIP` instance: the engine view, the cached
`max_priority` and the multimap `hp_jobs` (entries in iteration order). -/
structure Precatious_RM_IIP (Time : Type) where
  space : State_space Time
  max_priority : Time
  hp_jobs : List (Time × Job Time)

namespace Precatious_RM_IIP

variable {Time : Type} [LinearOrder Time] [Time_model Time]

/-- `Precatious_RM_IIP::highest_prio`. -/
def highest_prio (jobs : List (Job Time)) : Time :=
  jobs.foldl (fun prio j => std_min prio j.get_priority) infinity

/-- The loop of the constructor that fills `hp_jobs`. -/
def index_hp_jobs (max_priority : Time) (jobs : List (Job Time)) : List (Time × Job Time) :=
  jobs.foldl
    (fun hp j => if j.get_priority = max_priority then multimap_insert (j.latest_arrival, j) hp
                 else hp)
    []

/-- The constructor `Precatious_RM_IIP::Precatious_RM_IIP(space, jobs)`. -/
def construct (space : State_space Time) (jobs : List (Job Time)) : Precatious_RM_IIP Time :=
  { space := space
    max_priority := highest_prio jobs
    hp_jobs := index_hp_jobs (highest_prio jobs) jobs }

/-- The scan of `Precatious_RM_IIP::latest_start` over the entries from
`hp_jobs.upper_bound(t)` on. -/
def scan [Sub Time] (space : State_space Time) (j : Job Time) (as : Scheduled) :
    List (Time × Job Time) → Time
  | [] => infinity
  | it :: rest =>
    let h := it.2
    if space.incomplete as h then
      h.get_deadline - h.maximal_cost - j.maximal_cost
    else
      scan space j as rest

/-- `Precatious_RM_IIP::latest_start`. -/
def latest_start [Sub Time] (iip : Precatious_RM_IIP Time) (j : Job Time) (t : Time)
    (as : Scheduled) : Time :=
  if j.get_priority = iip.max_priority then
    infinity
  else
    scan iip.space j as (upper_bound t iip.hp_jobs)

end Precatious_RM_IIP

/-- The test a `hp_jobs` entry has to pass to be returned by the scan of
`latest_start`: its key (latest arrival) is strictly greater than `t` and its job is
incomplete under `as`. -/
def pending {Time : Type} [LinearOrder Time] (space : State_space Time) (t : Time)
    (as : Scheduled) (e : Time × Job Time) : Bool :=
  decide (t < e.1) && space.incomplete as e.2

/-- The value `latest_start` returns for a job `j` that is not of maximal priority,
given the `hp_jobs` entry the scan stops at, if any. -/
def prm_bound {Time : Type} [Time_model Time] [Sub Time] (j : Job Time) :
    Option (Time × Job Time) → Time
  | some e => e.2.get_deadline - e.2.maximal_cost - j.maximal_cost
  | none => infinity

/-- One step of a left-to-right pass over the workload that keeps, among the jobs of
priority `mp` whose entry passes `p`, the one with the smallest latest arrival, the
earlier job winning a tie. -/
def select_step {Time : Type} [LinearOrder Time] (mp : Time) (p : Time × Job Time → Bool)
    (best : Option (Time × Job Time)) (k : Job Time) : Option (Time × Job Time) :=
  if k.get_priority = mp ∧ p (k.latest_arrival, k) = true then
    match best with
    | some x => if k.latest_arrival < x.1 then some (k.latest_arrival, k) else some x
    | none => some (k.latest_arrival, k)
  else best

/-! ## `Critical_window_IIP` -/

/-- State of a `Critical_window_IIP` instance: the engine view and the cached
`max_cost` and `n_tasks` (a `std::size_t`). -/
structure Critical_window_IIP (Time : Type) where
  space : State_space Time
  max_cost : Time
  n_tasks : Nat

namespace Critical_window_IIP

variable {Time : Type} [LinearOrder Time]

/-- `Critical_window_IIP::maximal_cost`. -/
def maximal_cost [Zero Time] (jobs : List (Job Time)) : Time :=
  jobs.foldl (fun cmax j => std_max cmax j.maximal_cost) 0

/-- Insertion into the `std::unordered_set` of task ids in `count_tasks`. -/
def all_tasks_insert (all_tasks : List Nat) (tid : Nat) : List Nat :=
  if all_tasks.contains tid then all_tasks else tid :: all_tasks

/-- `Critical_window_IIP::count_tasks`. -/
def count_tasks (jobs : List (Job Time)) : Nat :=
  (jobs.foldl (fun all_tasks j => all_tasks_insert all_tasks j.get_task_id) []).length

/-- The constructor `Critical_window_IIP::Critical_window_IIP(space, jobs)`. -/
def construct [Zero Time] (space : State_space Time) (jobs : List (Job Time)) :
    Critical_window_IIP Time :=
  { space := space
    max_cost := maximal_cost jobs
    n_tasks := count_tasks jobs }

/-- The map `ijs` of `influencing_jobs` (task id to representative), as the list of
its entries. -/
abbrev Ijs (Time : Type) := List (Nat × Job Time)

/-- Lookup of a task id in the map `ijs` (`ijs.find(tid)`). -/
def ijs_find (ijs : Ijs Time) (tid : Nat) : Option (Job Time) :=
  ijs.lookup tid

/-- Assignment `ijs[tid] = &j`: replaces the entry of `tid` when there is one, adds
an entry otherwise. -/
def ijs_assign (tid : Nat) (j : Job Time) : Ijs Time → Ijs Time
  | [] => [(tid, j)]
  | e :: rest => if e.1 = tid then (tid, j) :: rest else e :: ijs_assign tid j rest

/-- One iteration of the first loop of `influencing_jobs` (jobs pending at `t`). -/
def seed_step (space : State_space Time) (j_i : Job Time) (t : Time) (as : Scheduled)
    (ijs : Ijs Time) (j : Job Time) : Ijs Time :=
  let tid := j.get_task_id
  if j.scheduling_window.contains t
      && (j_i.get_task_id != tid)
      && space.incomplete as j
      && (match ijs_find ijs tid with
          | none => true
          | some r => decide (j.earliest_arrival < r.earliest_arrival)) then
    ijs_assign tid j ijs
  else
    ijs

/-- The first loop of `influencing_jobs`, over `space.jobs_by_win.lookup(t)`. -/
def seed (space : State_space Time) (j_i : Job Time) (t : Time) (as : Scheduled) : Ijs Time :=
  (space.jobs_by_win_lookup t).foldl (seed_step space j_i t as) []

/-- The loop of `influencing_jobs` that computes the initial `latest_deadline`. -/
def initial_latest_deadline [Zero Time] (ijs : Ijs Time) : Time :=
  ijs.foldl (fun latest_deadline ij => std_max latest_deadline ij.2.get_deadline) 0

/-- The value `n_tasks - 1`, computed in `std::size_t` (64 bits). -/
def n_tasks_minus_one (n_tasks : Nat) : Nat :=
  (n_tasks + 18446744073709551615) % 18446744073709551616

/-- The second loop of `influencing_jobs`, over the entries of
`jobs_by_earliest_arrival` from `upper_bound(t)` on.  The result is `none` when the
assertion `space.incomplete(already_scheduled, j)` fails. -/
def extend_loop [Add Time] (iip : Critical_window_IIP Time) (as : Scheduled) :
    List (Time × Job Time) → Ijs Time → Time → Option (Ijs Time)
  | [], ijs, _ => some ijs
  | it :: rest, ijs, latest_deadline =>
    if ijs.length < n_tasks_minus_one iip.n_tasks then
      let j := it.2
      let tid := j.get_task_id
      if iip.space.incomplete as j then
        let ijs1 := if ijs_find ijs tid = none then ijs_assign tid j ijs else ijs
        let latest_deadline1 :=
          if ijs_find ijs tid = none then std_max latest_deadline j.get_deadline
          else latest_deadline
        if latest_deadline1 + iip.max_cost < it.1 then
          some ijs1
        else
          extend_loop iip as rest ijs1 latest_deadline1
      else
        none
    else
      some ijs

/-- The comparator `by_deadline` of `influencing_jobs`. -/
def by_deadline (a b : Job Time) : Bool :=
  decide (a.get_deadline < b.get_deadline)

/-- The call `std::sort(..., by_deadline)`: an insertion sort that puts `a` before
`b` unless `by_deadline b a`. -/
def sort_by_deadline (l : List (Job Time)) : List (Job Time) :=
  l.insertionSort (fun a b => by_deadline b a = false)

/-- `Critical_window_IIP::influencing_jobs`; `none` when the assertion of the second
loop fails. -/
def influencing_jobs [Add Time] [Zero Time] (iip : Critical_window_IIP Time) (j_i : Job Time)
    (t : Time) (already_scheduled : Scheduled) : Option (List (Job Time)) :=
  let ijs := seed iip.space j_i t already_scheduled
  let latest_deadline := initial_latest_deadline ijs
  match extend_loop iip already_scheduled (upper_bound t iip.space.jobs_by_earliest_arrival)
      ijs latest_deadline with
  | none => none
  | some ijs1 => some (sort_by_deadline (ijs1.map Prod.snd))

/-- The loop of `latest_start` over `ijs` from `rbegin()` to `rend()`. -/
def reduce [Time_model Time] [Sub Time] (ijs : List (Job Time)) : Time :=
  ijs.reverse.foldl (fun latest it => std_min latest it.get_deadline - it.maximal_cost) infinity

/-- `Critical_window_IIP::latest_start`; `none` when `influencing_jobs` aborts. -/
def latest_start [Time_model Time] [Add Time] [Sub Time] [Zero Time]
    (iip : Critical_window_IIP Time) (j : Job Time) (t : Time) (as : Scheduled) :
    Option Time :=
  match influencing_jobs iip j t as with
  | none => none
  | some ijs => some (reduce ijs - j.maximal_cost)

end Critical_window_IIP

/-! ## The closed form of the Critical Window bound -/

/-- One execution of the body of the second loop of `influencing_jobs`: the index entry
visited, the map `ijs` and `latest_deadline` before the body, and both after it. -/
structure Visit (Time : Type) where
  entry : Time × Job Time
  ijs_before : Critical_window_IIP.Ijs Time
  latest_deadline_before : Time
  ijs_after : Critical_window_IIP.Ijs Time
  latest_deadline_after : Time
deriving DecidableEq

namespace Critical_window_IIP

variable {Time : Type} [LinearOrder Time]

/-- The test of the first loop of `influencing_jobs` on a job `k`, for the task id
`tid`: `k` is of task `tid`, its scheduling window contains `t`, it is of another task
than `j_i`, and it is incomplete. -/
def seed_candidate (space : State_space Time) (j_i : Job Time) (t : Time) (as : Scheduled)
    (tid : Nat) (k : Job Time) : Prop :=
  k.get_task_id = tid ∧ k.scheduling_window.contains t = true
    ∧ j_i.get_task_id ≠ k.get_task_id ∧ space.incomplete as k = true

instance (space : State_space Time) (j_i : Job Time) (t : Time) (as : Scheduled)
    (tid : Nat) (k : Job Time) : Decidable (seed_candidate space j_i t as tid k) := by
  unfold seed_candidate
  infer_instance

/-- What one iteration of the first loop of `influencing_jobs` does to the
representative of the task id `tid`. -/
def rep_step (space : State_space Time) (j_i : Job Time) (t : Time) (as : Scheduled)
    (tid : Nat) (best : Option (Job Time)) (j : Job Time) : Option (Job Time) :=
  if j.get_task_id = tid ∧ j.scheduling_window.contains t = true
      ∧ j_i.get_task_id ≠ j.get_task_id ∧ space.incomplete as j = true
      ∧ (∀ r, best = some r → j.earliest_arrival < r.earliest_arrival) then
    some j
  else
    best

/-- Well-formedness of the map `ijs`: every key occurs once, and every job is stored
under its own task id. -/
def ijs_wf (ijs : Ijs Time) : Prop :=
  (ijs.map Prod.fst).Nodup ∧ ∀ e ∈ ijs, e.2.get_task_id = e.1

instance (ijs : Ijs Time) : Decidable (ijs_wf ijs) := by
  unfold ijs_wf
  infer_instance

/-- The map `ijs` after the body of the second loop has run on the entry `it`. -/
def extend_ijs (ijs : Ijs Time) (it : Time × Job Time) : Ijs Time :=
  if ijs_find ijs it.2.get_task_id = none then ijs_assign it.2.get_task_id it.2 ijs else ijs

/-- The value of `latest_deadline` after the body of the second loop has run on `it`. -/
def extend_latest_deadline (latest_deadline : Time) (ijs : Ijs Time) (it : Time × Job Time) :
    Time :=
  if ijs_find ijs it.2.get_task_id = none then std_max latest_deadline it.2.get_deadline
  else latest_deadline

/-- The executions of the body of the second loop of `influencing_jobs`, in order: the
same control flow as `extend_loop`, recording each entry for which the body is entered
(the entry at which the assertion fails included). -/
def extend_visits [Add Time] (iip : Critical_window_IIP Time) (as : Scheduled) :
    List (Time × Job Time) → Ijs Time → Time → List (Visit Time)
  | [], _, _ => []
  | it :: rest, ijs, latest_deadline =>
    if ijs.length < n_tasks_minus_one iip.n_tasks then
      let j := it.2
      let tid := j.get_task_id
      if iip.space.incomplete as j then
        let ijs1 := if ijs_find ijs tid = none then ijs_assign tid j ijs else ijs
        let latest_deadline1 :=
          if ijs_find ijs tid = none then std_max latest_deadline j.get_deadline
          else latest_deadline
        ⟨it, ijs, latest_deadline, ijs1, latest_deadline1⟩ ::
          (if latest_deadline1 + iip.max_cost < it.1 then []
           else extend_visits iip as rest ijs1 latest_deadline1)
      else
        [⟨it, ijs, latest_deadline, ijs, latest_deadline⟩]
    else
      []

/-- The entries the second loop of `influencing_jobs` iterates over: those from
`jobs_by_earliest_arrival.upper_bound(t)` on. -/
def extend_scan (iip : Critical_window_IIP Time) (t : Time) : List (Time × Job Time) :=
  upper_bound t iip.space.jobs_by_earliest_arrival

/-- The map `ijs` of a query after the second loop; `none` when the assertion fails. -/
def query_ijs [Add Time] [Zero Time] (iip : Critical_window_IIP Time) (j_i : Job Time)
    (t : Time) (as : Scheduled) : Option (Ijs Time) :=
  extend_loop iip as (extend_scan iip t) (seed iip.space j_i t as)
    (initial_latest_deadline (seed iip.space j_i t as))

/-- The executions of the body of the second loop in a query. -/
def query_visits [Add Time] [Zero Time] (iip : Critical_window_IIP Time) (j_i : Job Time)
    (t : Time) (as : Scheduled) : List (Visit Time) :=
  extend_visits iip as (extend_scan iip t) (seed iip.space j_i t as)
    (initial_latest_deadline (seed iip.space j_i t as))

end Critical_window_IIP

/-! ## The values a Critical Window query can return -/

namespace Critical_window_IIP

variable {Time : Type} [LinearOrder Time]

/-- The values `Critical_window_IIP::latest_start` can return on a query.  The map `ijs`
is a `std::unordered_map`, iterated in an unspecified order, and `std::sort` leaves the
order of representatives of equal deadline unspecified: `e1` is any enumeration of the
seeded map (it feeds the `latest_deadline` loop) and `l` is any arrangement of the final
representatives that is sorted by deadline.  The value `none` stands for the abort. -/
def latest_start_outcome [Time_model Time] [Add Time] [Sub Time] [Zero Time]
    (iip : Critical_window_IIP Time) (j : Job Time) (t : Time) (as : Scheduled)
    (v : Option Time) : Prop :=
  ∃ e1 : Ijs Time, e1.Perm (seed iip.space j t as) ∧
    ((extend_loop iip as (extend_scan iip t) (seed iip.space j t as)
          (initial_latest_deadline e1) = none ∧ v = none)
      ∨ ∃ (ijs : Ijs Time) (l : List (Job Time)),
          extend_loop iip as (extend_scan iip t) (seed iip.space j t as)
            (initial_latest_deadline e1) = some ijs
          ∧ l.Perm (ijs.map Prod.snd)
          ∧ l.Pairwise (fun a b => a.get_deadline ≤ b.get_deadline)
          ∧ v = some (reduce l - j.maximal_cost))

end Critical_window_IIP

/-! ## A concrete time domain and example workloads -/

/-- Modelled from the spec: a time domain with an infinity sentinel, the integers
extended by a top element, with the order, `+`, `-` and `0` of Mathlib.  The difference
of two finite values is their integer difference and `infinity - c = infinity` for
every finite `c`; the spec leaves `c - infinity` open (it is `infinity` here) and no
theorem below depends on its value. -/
instance : Time_model (WithTop ℤ) := ⟨⊤⟩

/-- Modelled from the spec: exact integer time, the integers with the largest signed
64-bit value as the infinity sentinel.  Theorems over it state what they assume of the
sentinel (`x ≤ infinity`) as a hypothesis. -/
instance : Time_model ℤ := ⟨9223372036854775807⟩

/-! ### A time domain with rounding arithmetic -/

/-- The unit in the last place of `n` for a one-digit decimal significand: the largest
power of 10 that is at most `n` (1 for `n < 10`); `fuel` bounds the recursion. -/
def Coarse.unit_of : Nat → Nat → Nat
  | 0, _ => 1
  | fuel + 1, n => if n < 10 then 1 else 10 * Coarse.unit_of fuel (n / 10)

/-- Rounding of a natural number to the nearest number with one significant decimal
digit (ties upwards). -/
def Coarse.round_nat (n : Nat) : Nat :=
  ((n + Coarse.unit_of n n / 2) / Coarse.unit_of n n) * Coarse.unit_of n n

/-- Rounding of an integer to the nearest number with one significant decimal digit. -/
def Coarse.round (z : Int) : Int :=
  if 0 ≤ z then (Coarse.round_nat z.toNat : Int) else -(Coarse.round_nat (-z).toNat : Int)

/-- Modelled from the spec: a numeric time domain whose arithmetic rounds, as that of
dense (floating-point) time does, in its smallest form: decimal numbers with a one-digit
significand.  Values are ordered as integers; every sum and difference is rounded to the
nearest representable number. -/
structure Coarse where
  val : Int
deriving DecidableEq

instance : LinearOrder Coarse :=
  LinearOrder.lift' Coarse.val (by intro a b h; cases a; cases b; simp_all)

instance : Add Coarse := ⟨fun a b => ⟨Coarse.round (a.val + b.val)⟩⟩

instance : Sub Coarse := ⟨fun a b => ⟨Coarse.round (a.val - b.val)⟩⟩

instance : Zero Coarse := ⟨⟨0⟩⟩

/-- The sentinel of the rounding time domain: a representable number above every
deadline of the examples. -/
instance : Time_model Coarse := ⟨⟨1000000000⟩⟩

namespace Example

/-- An engine view for the examples: `n` cores, a job is incomplete when its position
in `jobs` is not in the scheduled set, and the two indices as given. -/
def space (n : Nat) (jobs : List (Job (WithTop ℤ))) (win : List (Job (WithTop ℤ)))
    (by_arrival : List (WithTop ℤ × Job (WithTop ℤ))) : State_space (WithTop ℤ) :=
  ⟨n, fun as j => !as.contains (jobs.indexOf j), fun _ => win, by_arrival⟩

/-- Acquisition job `A1` (id 1) of the end-to-end example. -/
def A1 : Job (WithTop ℤ) := ⟨1, 1, 1, 0, 0, 10, 2, ⟨0, 10⟩⟩

/-- Restitution job `R1` (id 2) of the end-to-end example. -/
def R1 : Job (WithTop ℤ) := ⟨2, 1, 1, 10, 10, 20, 2, ⟨10, 20⟩⟩

/-- A second acquisition job `A3` (id 3). -/
def A3 : Job (WithTop ℤ) := ⟨3, 2, 2, 0, 0, 10, 2, ⟨0, 10⟩⟩

/-- The AER policy of the end-to-end example: workload `A1, R1`, one core. -/
def aer_one_core : AER_IIP (WithTop ℤ) := ⟨space 1 [A1, R1] [] [], [A1, R1]⟩

/-- An AER policy over the workload `A1` with 2^31 cores. -/
def aer_many_cores : AER_IIP (WithTop ℤ) := ⟨space 2147483648 [A1] [] [], [A1]⟩

/-- A job of the highest priority (value 1) with latest arrival 5. -/
def H1 : Job (WithTop ℤ) := ⟨1, 1, 1, 0, 5, 20, 3, ⟨0, 20⟩⟩

/-- A job of the highest priority (value 1) with latest arrival 15. -/
def H2 : Job (WithTop ℤ) := ⟨2, 1, 1, 10, 15, 40, 3, ⟨10, 40⟩⟩

/-- A job of lower priority (value 2). -/
def L1 : Job (WithTop ℤ) := ⟨3, 2, 2, 0, 0, 50, 4, ⟨0, 50⟩⟩

/-- The P-RM policy over the workload `L1, H2, H1`. -/
def prm : Precatious_RM_IIP (WithTop ℤ) :=
  Precatious_RM_IIP.construct (space 1 [L1, H2, H1] [] []) [L1, H2, H1]

/-- First job of task 1; its scheduling window contains time 0. -/
def J1 : Job (WithTop ℤ) := ⟨1, 1, 1, 0, 0, 10, 2, ⟨0, 10⟩⟩

/-- Second job of task 1, arriving at time 10. -/
def J2 : Job (WithTop ℤ) := ⟨2, 1, 1, 10, 10, 20, 2, ⟨10, 20⟩⟩

/-- A job of task 2, arriving at time 20. -/
def M1 : Job (WithTop ℤ) := ⟨3, 2, 2, 20, 20, 45, 5, ⟨20, 45⟩⟩

/-- The Critical Window policy over the two tasks `J1, J2` and `M1`; the window
lookup returns all three jobs, of which only `J1` has a window containing time 0. -/
def cw_own_task : Critical_window_IIP (WithTop ℤ) :=
  Critical_window_IIP.construct
    (space 1 [J1, J2, M1] [J1, J2, M1] [(0, J1), (10, J2), (20, M1)]) [J1, J2, M1]

/-- A job of task 2 whose scheduling window contains time 0. -/
def Q1 : Job (WithTop ℤ) := ⟨4, 2, 2, 0, 0, 30, 5, ⟨0, 30⟩⟩

/-- The engine view of the two-task example: workload `J1, Q1`, both pending at 0. -/
def two_tasks_space : State_space (WithTop ℤ) :=
  space 1 [J1, Q1] [J1, Q1] [(0, J1), (0, Q1)]

/-- A job of task 2 with deadline 60 whose scheduling window contains time 0. -/
def Q3 : Job (WithTop ℤ) := ⟨5, 2, 2, 0, 0, 60, 5, ⟨0, 60⟩⟩

/-- A job of task 3 with deadline 45, arriving at time 20. -/
def M3 : Job (WithTop ℤ) := ⟨6, 3, 3, 20, 20, 45, 5, ⟨20, 45⟩⟩

/-- The Critical Window policy over the three tasks of `J1`, `Q3` and `M3`. -/
def cw_three_tasks : Critical_window_IIP (WithTop ℤ) :=
  Critical_window_IIP.construct
    (space 1 [J1, Q3, M3] [J1, Q3] [(0, J1), (0, Q3), (20, M3)]) [J1, Q3, M3]

/-- A job of task 2 with deadline 30 and maximal cost 5, pending at time 0. -/
def T2 : Job (WithTop ℤ) := ⟨7, 2, 2, 0, 0, 30, 5, ⟨0, 30⟩⟩

/-- A job of task 3 with the same deadline 30 and maximal cost 4, pending at time 0. -/
def T3 : Job (WithTop ℤ) := ⟨8, 3, 3, 0, 0, 30, 4, ⟨0, 30⟩⟩

/-- The Critical Window policy over `J1`, `T2`, `T3`: two representatives with equal
deadlines. -/
def cw_tie : Critical_window_IIP (WithTop ℤ) :=
  Critical_window_IIP.construct
    (space 1 [J1, T2, T3] [J1, T2, T3] [(0, J1), (0, T2), (0, T3)]) [J1, T2, T3]

/-- A job of task 3 arriving at time 100, with deadline 120. -/
def F3 : Job (WithTop ℤ) := ⟨9, 3, 3, 100, 100, 120, 5, ⟨100, 120⟩⟩

/-- Three tasks: `J1`, `Q1` (pending at 0, deadline 30) and the far job `F3`. -/
def cw_beyond : Critical_window_IIP (WithTop ℤ) :=
  Critical_window_IIP.construct
    (space 1 [J1, Q1, F3] [J1, Q1, F3] [(0, J1), (0, Q1), (100, F3)]) [J1, Q1, F3]

/-- Two tasks: `J1` and `M1`, the latter arriving at time 20. -/
def cw_far : Critical_window_IIP (WithTop ℤ) :=
  Critical_window_IIP.construct (space 1 [J1, M1] [J1, M1] [(0, J1), (20, M1)]) [J1, M1]

/-- A later job of task 2, arriving at time 35. -/
def Q5 : Job (WithTop ℤ) := ⟨10, 2, 2, 35, 35, 60, 5, ⟨35, 60⟩⟩

/-- A later job of task 2, arriving at time 36. -/
def Q6 : Job (WithTop ℤ) := ⟨11, 2, 2, 36, 36, 60, 5, ⟨36, 60⟩⟩

/-- A job of task 3, arriving at time 40. -/
def M5 : Job (WithTop ℤ) := ⟨12, 3, 3, 40, 40, 70, 5, ⟨40, 70⟩⟩

/-- Three tasks, the index entry after time 0 has key 35 = 30 + 5. -/
def cw_equal : Critical_window_IIP (WithTop ℤ) :=
  Critical_window_IIP.construct
    (space 1 [J1, Q1, Q5, M5] [J1, Q1, Q5, M5] [(0, J1), (0, Q1), (35, Q5), (40, M5)])
    [J1, Q1, Q5, M5]

/-- Three tasks, the index entry after time 0 has key 36 > 30 + 5. -/
def cw_stop : Critical_window_IIP (WithTop ℤ) :=
  Critical_window_IIP.construct
    (space 1 [J1, Q1, Q6, M5] [J1, Q1, Q6, M5] [(0, J1), (0, Q1), (36, Q6), (40, M5)])
    [J1, Q1, Q6, M5]

/-- A job of task 2 with earliest arrival 5. -/
def Sa : Job (WithTop ℤ) := ⟨13, 2, 2, 5, 5, 30, 5, ⟨5, 30⟩⟩

/-- A job of task 2 with earliest arrival 0. -/
def Sb : Job (WithTop ℤ) := ⟨14, 2, 2, 0, 0, 40, 5, ⟨0, 40⟩⟩

/-- Another job of task 2 with earliest arrival 0. -/
def Sc : Job (WithTop ℤ) := ⟨15, 2, 2, 0, 0, 50, 5, ⟨0, 50⟩⟩

/-- An engine view whose window lookup returns `J1, Sa, Sb, Sc`, in this order. -/
def seed_space : State_space (WithTop ℤ) :=
  space 1 [J1, Sa, Sb, Sc] [J1, Sa, Sb, Sc] [(0, J1), (0, Sb), (0, Sc), (5, Sa)]

/-- The candidate job of task 1 over the rounding time domain, maximal cost 0. -/
def K1 : Job Coarse := ⟨1, 1, ⟨1⟩, ⟨0⟩, ⟨0⟩, ⟨100⟩, ⟨0⟩, ⟨⟨0⟩, ⟨100⟩⟩⟩

/-- A job of task 2 over the rounding time domain: deadline 100, maximal cost 1. -/
def K2 : Job Coarse := ⟨2, 2, ⟨2⟩, ⟨0⟩, ⟨0⟩, ⟨100⟩, ⟨1⟩, ⟨⟨0⟩, ⟨100⟩⟩⟩

/-- A job of task 3 over the rounding time domain: deadline 100, maximal cost 90. -/
def K3 : Job Coarse := ⟨3, 3, ⟨3⟩, ⟨0⟩, ⟨0⟩, ⟨100⟩, ⟨90⟩, ⟨⟨0⟩, ⟨100⟩⟩⟩

/-- The Critical Window policy over `K1`, `K2`, `K3`, all pending at time 0. -/
def cw_coarse : Critical_window_IIP Coarse :=
  Critical_window_IIP.construct
    ⟨1, fun as j => !as.contains ([K1, K2, K3].indexOf j), fun _ => [K1, K2, K3],
      [(⟨0⟩, K1), (⟨0⟩, K2), (⟨0⟩, K3)]⟩ [K1, K2, K3]

end Example

/-! ## Theorems -/

/-! ### Machine arithmetic -/

theorem to_int_to_unsigned (z : Int) (h1 : -2147483648 ≤ z) (h2 : z < 2147483648) :
    to_int (to_unsigned z) = z := by
  unfold to_int to_unsigned
  split <;> omega

/-! ### `Null_IIP` -/

/-- C10: `Null_IIP::latest_start` returns the infinity sentinel for every job, time
and scheduled set. -/
theorem null_latest_start_eq_infinity {Time : Type} [Time_model Time]
    (j : Job Time) (t : Time) (as : Scheduled) :
    Null_IIP.latest_start j t as = infinity :=
  rfl

/-! ### `AER_IIP` -/

theorem busy_cores_loop_eq {Time : Type} (as : Scheduled) (jobs : List (Job Time)) (i : Nat)
    (sum : Int) :
    AER_IIP.busy_cores_loop as i jobs sum
      = sum + (AER_IIP.count_scheduled (fun j => decide (j.get_id % 2 = 1)) as i jobs : Int)
            - (AER_IIP.count_scheduled (fun j => decide (j.get_id % 2 = 0)) as i jobs : Int) := by
  induction jobs generalizing i sum with
  | nil => simp [AER_IIP.busy_cores_loop, AER_IIP.count_scheduled]
  | cons j rest ih =>
    have hpar : j.get_id % 2 = 0 ∨ j.get_id % 2 = 1 := by omega
    unfold AER_IIP.busy_cores_loop
    simp only [ih, AER_IIP.count_scheduled, List.enumFrom_cons, List.filter_cons,
      AER_IIP.is_restitution_phase, AER_IIP.is_acquisition_phase]
    rcases hpar with h | h <;> by_cases hc : i ∈ as <;> simp [h, hc] <;> omega

theorem busy_cores_eq {Time : Type} (iip : AER_IIP Time) (as : Scheduled) (t : Time) :
    iip.busy_cores as t = AER_IIP.unmatched_acquisitions iip.jobs as := by
  simp [AER_IIP.busy_cores, AER_IIP.unmatched_acquisitions, busy_cores_loop_eq]

/-- C1 (as stated, refuted): with 2^31 cores, the workload `A1` and nothing scheduled,
`K = 0` is smaller than the core count, yet `AER_IIP::latest_start` returns 0 for the
acquisition job `A1`, and 0 is not the infinity sentinel. -/
theorem aer_acquisition_counterexample :
    Example.A1.get_id % 2 = 1
    ∧ AER_IIP.unmatched_acquisitions Example.aer_many_cores.jobs [] = 0
    ∧ Example.aer_many_cores.total_cores = 2147483648
    ∧ AER_IIP.latest_start Example.aer_many_cores Example.A1 0 [] = 0
    ∧ (0 : WithTop ℤ) ≠ infinity := by
  decide

/-- C1 (amended): for an Acquisition job (odd id), with `N = total_cores()` and `K` the
number of scheduled unmatched Acquisition jobs, whenever `N - K` fits a signed 32-bit
integer, `AER_IIP::latest_start` returns infinity when `K < N` and 0 otherwise. -/
theorem aer_acquisition_latest_start {Time : Type} [Time_model Time] [Zero Time]
    (iip : AER_IIP Time) (j : Job Time) (t : Time) (as : Scheduled)
    (hj : j.get_id % 2 = 1)
    (hlo : -2147483648 ≤ (iip.total_cores : Int) - AER_IIP.unmatched_acquisitions iip.jobs as)
    (hhi : (iip.total_cores : Int) - AER_IIP.unmatched_acquisitions iip.jobs as < 2147483648) :
    AER_IIP.latest_start iip j t as
      = if AER_IIP.unmatched_acquisitions iip.jobs as < (iip.total_cores : Int) then infinity
        else 0 := by
  have hfree : to_int (iip.available_cores as t)
      = (iip.total_cores : Int) - AER_IIP.unmatched_acquisitions iip.jobs as := by
    rw [AER_IIP.available_cores, busy_cores_eq]
    exact to_int_to_unsigned _ hlo hhi
  have hphase : AER_IIP.is_restitution_phase j = false := by
    simp [AER_IIP.is_restitution_phase, AER_IIP.is_acquisition_phase, hj]
  simp only [AER_IIP.latest_start, hphase, hfree]
  by_cases hk : AER_IIP.unmatched_acquisitions iip.jobs as < (iip.total_cores : Int)
  · have : (iip.total_cores : Int) - AER_IIP.unmatched_acquisitions iip.jobs as > 0 := by omega
    simp [hk, this]
  · have : ¬ (iip.total_cores : Int) - AER_IIP.unmatched_acquisitions iip.jobs as > 0 := by omega
    simp [hk, this]

/-- The end-to-end example of the spec: one core, workload `A1, R1`.  With nothing
scheduled `A1` gets infinity; with `A1` scheduled the acquisition job `A3` gets 0. -/
theorem aer_acquisition_latest_start_witness :
    AER_IIP.latest_start Example.aer_one_core Example.A1 0 [] = infinity
    ∧ AER_IIP.latest_start Example.aer_one_core Example.A3 0 [0] = 0 :=
  ⟨aer_acquisition_latest_start Example.aer_one_core Example.A1 0 []
      (by decide) (by decide) (by decide),
   aer_acquisition_latest_start Example.aer_one_core Example.A3 0 [0]
      (by decide) (by decide) (by decide)⟩

/-- C2: for a Restitution job (even id) `AER_IIP::latest_start` returns infinity,
whatever the scheduled set and the number of free cores. -/
theorem aer_restitution_latest_start {Time : Type} [Time_model Time] [Zero Time]
    (iip : AER_IIP Time) (j : Job Time) (t : Time) (as : Scheduled)
    (hj : j.get_id % 2 = 0) :
    AER_IIP.latest_start iip j t as = infinity := by
  have hphase : AER_IIP.is_restitution_phase j = true := by
    simp [AER_IIP.is_restitution_phase, AER_IIP.is_acquisition_phase, hj]
  simp [AER_IIP.latest_start, hphase]

/-- The end-to-end example of the spec: after `A1` is scheduled, `R1` gets infinity
although no core is free. -/
theorem aer_restitution_latest_start_witness :
    Example.R1.get_id % 2 = 0
    ∧ to_int (Example.aer_one_core.available_cores [0] 0) = 0
    ∧ AER_IIP.latest_start Example.aer_one_core Example.R1 0 [0] = infinity :=
  ⟨by decide, by decide,
   aer_restitution_latest_start Example.aer_one_core Example.R1 0 [0] (by decide)⟩

/-! ### Order, `std::min`, `std::max` and the multimap -/

section

variable {Time : Type} [LinearOrder Time]

open Precatious_RM_IIP

theorem std_min_eq_min (a b : Time) : std_min a b = min a b := by
  unfold std_min
  split
  · rw [min_eq_right]; exact le_of_lt ‹_›
  · rw [min_eq_left]; exact not_lt.mp ‹_›

theorem std_max_eq_max (a b : Time) : std_max a b = max a b := by
  unfold std_max
  split
  · rw [max_eq_right]; exact le_of_lt ‹_›
  · rw [max_eq_left]; exact not_lt.mp ‹_›

theorem mem_multimap_insert {α : Type} (e x : Time × α) (m : List (Time × α)) :
    x ∈ multimap_insert e m ↔ x = e ∨ x ∈ m := by
  induction m with
  | nil => simp [multimap_insert]
  | cons y ys ih =>
    unfold multimap_insert
    split
    · simp
    · simp [ih]; tauto

theorem multimap_insert_sorted {α : Type} (e : Time × α) (m : List (Time × α))
    (hm : m.Pairwise (fun a b => a.1 ≤ b.1)) :
    (multimap_insert e m).Pairwise (fun a b => a.1 ≤ b.1) := by
  induction m with
  | nil => simp [multimap_insert]
  | cons y ys ih =>
    rw [List.pairwise_cons] at hm
    unfold multimap_insert
    split
    · rename_i hlt
      refine List.pairwise_cons.mpr ⟨?_, List.pairwise_cons.mpr hm⟩
      intro z hz
      rcases List.mem_cons.mp hz with rfl | hz
      · exact le_of_lt hlt
      · exact le_trans (le_of_lt hlt) (hm.1 z hz)
    · rename_i hlt
      refine List.pairwise_cons.mpr ⟨?_, ih hm.2⟩
      intro z hz
      rcases (mem_multimap_insert e z ys).mp hz with rfl | hz
      · exact not_lt.mp hlt
      · exact hm.1 z hz

theorem find_multimap_insert {α : Type} (p : Time × α → Bool) (e : Time × α)
    (m : List (Time × α)) (hm : m.Pairwise (fun a b => a.1 ≤ b.1)) :
    (multimap_insert e m).find? p
      = if p e then
          (match m.find? p with
           | some x => if e.1 < x.1 then some e else some x
           | none => some e)
        else m.find? p := by
  induction m with
  | nil => by_cases hp : p e <;> simp [multimap_insert, hp]
  | cons y ys ih =>
    rw [List.pairwise_cons] at hm
    unfold multimap_insert
    by_cases hlt : e.1 < y.1
    · simp only [hlt, if_true]
      by_cases hp : p e
      · rw [List.find?_cons_of_pos _ hp]
        simp only [hp, if_true]
        cases hf : List.find? p (y :: ys) with
        | none => rfl
        | some x =>
          have hx : x ∈ y :: ys := List.mem_of_find?_eq_some hf
          have : e.1 < x.1 := by
            rcases List.mem_cons.mp hx with rfl | hx
            · exact hlt
            · exact lt_of_lt_of_le hlt (hm.1 x hx)
          simp [this]
      · rw [List.find?_cons_of_neg _ hp]
        simp [hp]
    · simp only [hlt, if_false]
      by_cases hy : p y
      · rw [List.find?_cons_of_pos _ hy, List.find?_cons_of_pos _ hy]
        by_cases hp : p e <;> simp [hp, hlt]
      · rw [List.find?_cons_of_neg _ hy, List.find?_cons_of_neg _ hy]
        exact ih hm.2

theorem index_fold_sorted_find (mp : Time) (p : Time × Job Time → Bool) (jobs : List (Job Time))
    (m : List (Time × Job Time)) (hm : m.Pairwise (fun a b => a.1 ≤ b.1)) :
    (jobs.foldl (fun hp j => if j.get_priority = mp then multimap_insert (j.latest_arrival, j) hp
        else hp) m).Pairwise (fun a b => a.1 ≤ b.1)
    ∧ (jobs.foldl (fun hp j => if j.get_priority = mp then multimap_insert (j.latest_arrival, j) hp
        else hp) m).find? p = jobs.foldl (select_step mp p) (m.find? p) := by
  induction jobs generalizing m with
  | nil => exact ⟨hm, rfl⟩
  | cons k rest ih =>
    simp only [List.foldl_cons]
    by_cases hk : k.get_priority = mp
    · simp only [hk, if_true]
      have h := ih _ (multimap_insert_sorted (k.latest_arrival, k) m hm)
      refine ⟨h.1, ?_⟩
      rw [h.2, find_multimap_insert p _ m hm]
      congr 1
      unfold select_step
      by_cases hp : p (k.latest_arrival, k) = true
      · simp only [hk, hp, and_self, if_true]
        cases m.find? p <;> rfl
      · simp [hk, hp]
    · simp only [hk, if_false]
      have h := ih m hm
      refine ⟨h.1, ?_⟩
      rw [h.2]
      congr 1
      simp [select_step, hk]

theorem select_fold_skip (mp : Time) (p : Time × Job Time → Bool) (jobs : List (Job Time))
    (best : Option (Time × Job Time))
    (h : ∀ k ∈ jobs, k.get_priority = mp → p (k.latest_arrival, k) = false) :
    jobs.foldl (select_step mp p) best = best := by
  induction jobs generalizing best with
  | nil => rfl
  | cons k rest ih =>
    simp only [List.foldl_cons]
    have hk : select_step mp p best k = best := by
      unfold select_step
      by_cases h1 : k.get_priority = mp
      · simp [h k (List.mem_cons_self _ _) h1]
      · simp [h1]
    rw [hk]
    exact ih best (fun k2 hk2 => h k2 (List.mem_cons_of_mem _ hk2))

theorem select_fold_none (mp : Time) (p : Time × Job Time → Bool) (jobs : List (Job Time)) :
    jobs.foldl (select_step mp p) none = none
    ∨ ∃ k ∈ jobs, k.get_priority = mp ∧ p (k.latest_arrival, k) = true
        ∧ jobs.foldl (select_step mp p) none = some (k.latest_arrival, k) := by
  induction jobs using List.reverseRecOn with
  | nil => exact Or.inl rfl
  | append_singleton rest k ih =>
    simp only [List.foldl_append, List.foldl_cons, List.foldl_nil]
    by_cases hq : k.get_priority = mp ∧ p (k.latest_arrival, k) = true
    · rcases ih with h0 | ⟨k0, hk0, h1, h2, h3⟩
      · right
        refine ⟨k, by simp, hq.1, hq.2, ?_⟩
        rw [h0]; simp [select_step, hq]
      · right
        rw [h3]
        by_cases hlt : k.latest_arrival < k0.latest_arrival
        · exact ⟨k, by simp, hq.1, hq.2, by simp [select_step, hq, hlt]⟩
        · exact ⟨k0, by simp [hk0], h1, h2, by simp [select_step, hq, hlt]⟩
    · have hs : ∀ b, select_step mp p b k = b := by
        intro b; simp only [select_step, hq, if_false]
      rw [hs]
      rcases ih with h0 | ⟨k0, hk0, h1, h2, h3⟩
      · exact Or.inl h0
      · exact Or.inr ⟨k0, by simp [hk0], h1, h2, h3⟩

theorem select_fold_keep (mp : Time) (p : Time × Job Time → Bool) (jobs : List (Job Time))
    (x : Time × Job Time)
    (h : ∀ k ∈ jobs, k.get_priority = mp → p (k.latest_arrival, k) = true
          → ¬ k.latest_arrival < x.1) :
    jobs.foldl (select_step mp p) (some x) = some x := by
  induction jobs with
  | nil => rfl
  | cons k rest ih =>
    simp only [List.foldl_cons]
    have hk : select_step mp p (some x) k = some x := by
      unfold select_step
      by_cases hq : k.get_priority = mp ∧ p (k.latest_arrival, k) = true
      · simp [hq, h k (List.mem_cons_self _ _) hq.1 hq.2]
      · simp only [hq, if_false]
    rw [hk]
    exact ih (fun k2 hk2 => h k2 (List.mem_cons_of_mem _ hk2))

theorem select_fold_split (mp : Time) (p : Time × Job Time → Bool)
    (pre post : List (Job Time)) (h : Job Time)
    (hq : h.get_priority = mp ∧ p (h.latest_arrival, h) = true)
    (hpre : ∀ k ∈ pre, k.get_priority = mp → p (k.latest_arrival, k) = true
          → h.latest_arrival < k.latest_arrival)
    (hpost : ∀ k ∈ post, k.get_priority = mp → p (k.latest_arrival, k) = true
          → h.latest_arrival ≤ k.latest_arrival) :
    (pre ++ h :: post).foldl (select_step mp p) none = some (h.latest_arrival, h) := by
  simp only [List.foldl_append, List.foldl_cons]
  have hstep : select_step mp p (pre.foldl (select_step mp p) none) h
      = some (h.latest_arrival, h) := by
    rcases select_fold_none mp p pre with h0 | ⟨k0, hk0, h1, h2, h3⟩
    · rw [h0]; simp [select_step, hq]
    · rw [h3]; simp [select_step, hq, hpre k0 hk0 h1 h2]
  rw [hstep]
  exact select_fold_keep mp p post _ (fun k hk h1 h2 => not_lt.mpr (hpost k hk h1 h2))

theorem highest_prio_fold (jobs : List (Job Time)) (acc : Time) :
    (jobs.foldl (fun prio j => std_min prio j.get_priority) acc ≤ acc
      ∧ ∀ k ∈ jobs, jobs.foldl (fun prio j => std_min prio j.get_priority) acc ≤ k.get_priority)
    ∧ (jobs.foldl (fun prio j => std_min prio j.get_priority) acc = acc
      ∨ ∃ k ∈ jobs, jobs.foldl (fun prio j => std_min prio j.get_priority) acc = k.get_priority) := by
  induction jobs generalizing acc with
  | nil => simp
  | cons x xs ih =>
    simp only [List.foldl_cons, std_min_eq_min]
    obtain ⟨⟨h1, h2⟩, h3⟩ := ih (min acc x.get_priority)
    simp only [std_min_eq_min] at h1 h2 h3
    refine ⟨⟨le_trans h1 (min_le_left _ _), ?_⟩, ?_⟩
    · intro k hk
      rcases List.mem_cons.mp hk with rfl | hk
      · exact le_trans h1 (min_le_right _ _)
      · exact h2 k hk
    · rcases h3 with h3 | ⟨k, hk, h3⟩
      · rcases min_choice acc x.get_priority with hc | hc
        · left; rw [h3, hc]
        · right; exact ⟨x, List.mem_cons_self _ _, by rw [h3, hc]⟩
      · right; exact ⟨k, List.mem_cons_of_mem _ hk, h3⟩

end

/-! ### `Precatious_RM_IIP` -/

section

variable {Time : Type} [LinearOrder Time] [Time_model Time] [Sub Time]

open Precatious_RM_IIP

theorem scan_eq_of_all_gt (space : State_space Time) (j : Job Time) (t : Time)
    (as : Scheduled) (l : List (Time × Job Time)) (h : ∀ e ∈ l, t < e.1) :
    scan space j as l = prm_bound j (l.find? (pending space t as)) := by
  induction l with
  | nil => rfl
  | cons x xs ih =>
    have hx : t < x.1 := h x (List.mem_cons_self _ _)
    unfold scan
    by_cases hinc : space.incomplete as x.2 = true
    · have : pending space t as x = true := by simp [pending, hx, hinc]
      rw [List.find?_cons_of_pos _ this]
      simp [hinc, prm_bound]
    · have : ¬ pending space t as x = true := by simp [pending, hinc]
      rw [List.find?_cons_of_neg _ this]
      simp only [hinc]
      exact ih (fun e he => h e (List.mem_cons_of_mem _ he))

theorem scan_upper_bound (space : State_space Time) (j : Job Time) (t : Time)
    (as : Scheduled) (m : List (Time × Job Time)) (hm : m.Pairwise (fun a b => a.1 ≤ b.1)) :
    scan space j as (upper_bound t m) = prm_bound j (m.find? (pending space t as)) := by
  induction m with
  | nil => rfl
  | cons x xs ih =>
    rw [List.pairwise_cons] at hm
    by_cases hx : t < x.1
    · have hub : upper_bound t (x :: xs) = x :: xs := by
        simp [upper_bound, List.dropWhile_cons, hx]
      rw [hub]
      apply scan_eq_of_all_gt
      intro e he
      rcases List.mem_cons.mp he with rfl | he
      · exact hx
      · exact lt_of_lt_of_le hx (hm.1 e he)
    · have hub : upper_bound t (x :: xs) = upper_bound t xs := by
        simp [upper_bound, List.dropWhile_cons, hx]
      have : ¬ pending space t as x = true := by simp [pending, hx]
      rw [hub, List.find?_cons_of_neg _ this]
      exact ih hm.2

theorem prm_latest_start_eq (space : State_space Time) (jobs : List (Job Time))
    (j : Job Time) (t : Time) (as : Scheduled) (hj : j.get_priority ≠ highest_prio jobs) :
    latest_start (construct space jobs) j t as
      = prm_bound j (jobs.foldl (select_step (highest_prio jobs) (pending space t as)) none) := by
  have h : (index_hp_jobs (highest_prio jobs) jobs).Pairwise (fun a b => a.1 ≤ b.1)
      ∧ (index_hp_jobs (highest_prio jobs) jobs).find? (pending space t as)
          = jobs.foldl (select_step (highest_prio jobs) (pending space t as)) none :=
    index_fold_sorted_find (highest_prio jobs) (pending space t as) jobs [] List.Pairwise.nil
  unfold latest_start construct
  simp only [hj, if_false]
  rw [scan_upper_bound space j t as _ h.1, h.2]

/-- C3: for a job `j` that is not of the workload's maximal priority, if the job `h` at
workload position `p` is of maximal priority, has latest arrival strictly greater than
`t` and is incomplete under `as`, and is the first such job in increasing order of
latest arrival (among equal latest arrivals, the earliest in the workload), then
`Precatious_RM_IIP::latest_start` returns
`h.deadline - h.maximal_cost - j.maximal_cost`. -/
theorem prm_latest_start_bound (space : State_space Time) (jobs : List (Job Time))
    (j : Job Time) (t : Time) (as : Scheduled)
    (hj : j.get_priority ≠ highest_prio jobs)
    (p : Nat) (hp : p < jobs.length)
    (hprio : jobs[p].get_priority = highest_prio jobs)
    (harr : t < jobs[p].latest_arrival)
    (hinc : space.incomplete as jobs[p] = true)
    (hfirst : ∀ (q : Nat) (hq : q < jobs.length),
      jobs[q].get_priority = highest_prio jobs → t < jobs[q].latest_arrival →
      space.incomplete as jobs[q] = true →
      jobs[p].latest_arrival < jobs[q].latest_arrival
        ∨ (jobs[p].latest_arrival = jobs[q].latest_arrival ∧ p ≤ q)) :
    latest_start (construct space jobs) j t as
      = jobs[p].get_deadline - jobs[p].maximal_cost - j.maximal_cost := by
  rw [prm_latest_start_eq space jobs j t as hj]
  have hsplit : jobs.take p ++ jobs[p] :: jobs.drop (p + 1) = jobs := by
    rw [List.getElem_cons_drop _ _ hp, List.take_append_drop]
  have hsel : (jobs.take p ++ jobs[p] :: jobs.drop (p + 1)).foldl
      (select_step (highest_prio jobs) (pending space t as)) none
      = some (jobs[p].latest_arrival, jobs[p]) := by
    apply select_fold_split
    · exact ⟨hprio, by simp [pending, harr, hinc]⟩
    · intro k hk h1 h2
      obtain ⟨q, hq, rfl⟩ := List.mem_take_iff_getElem.mp hk
      have hq1 : q < p := lt_of_lt_of_le hq (min_le_left _ _)
      have hq2 : q < jobs.length := lt_of_lt_of_le hq (min_le_right _ _)
      simp only [pending, Bool.and_eq_true, decide_eq_true_eq] at h2
      rcases hfirst q hq2 h1 h2.1 h2.2 with h | ⟨_, h⟩
      · exact h
      · omega
    · intro k hk h1 h2
      obtain ⟨q, hq, rfl⟩ := List.mem_drop_iff_getElem.mp hk
      have hq2 : p + 1 + q < jobs.length := by omega
      simp only [pending, Bool.and_eq_true, decide_eq_true_eq] at h2
      rcases hfirst (p + 1 + q) hq2 h1 h2.1 h2.2 with h | ⟨h, _⟩
      · exact le_of_lt h
      · exact le_of_eq h
  rw [hsplit] at hsel
  rw [hsel]
  rfl

/-- Workload `L1, H2, H1` at time 0 with nothing scheduled: both `H2` (position 1,
latest arrival 15) and `H1` (position 2, latest arrival 5) are pending, `H1` comes
first, and `L1` gets `20 - 3 - 4 = 13`. -/
theorem prm_latest_start_bound_witness :
    Precatious_RM_IIP.latest_start Example.prm Example.L1 0 [] = 13 :=
  prm_latest_start_bound (Example.space 1 [Example.L1, Example.H2, Example.H1] [] [])
    [Example.L1, Example.H2, Example.H1] Example.L1 0 [] (by decide) 2 (by decide)
    (by decide) (by decide) (by decide) (by decide)

/-- C4: a job whose priority value equals the minimum priority value over the
(hence non-empty) workload gets infinity from `Precatious_RM_IIP::latest_start`.  The
time domain enters through `htop`: no priority of the workload exceeds the infinity
sentinel. -/
theorem prm_latest_start_max_priority (space : State_space Time) (jobs : List (Job Time))
    (j : Job Time) (t : Time) (as : Scheduled)
    (hmin : ∀ k ∈ jobs, j.get_priority ≤ k.get_priority)
    (hex : ∃ k ∈ jobs, k.get_priority = j.get_priority)
    (htop : ∀ k ∈ jobs, k.get_priority ≤ infinity) :
    latest_start (construct space jobs) j t as = infinity := by
  have hp : j.get_priority = highest_prio jobs := by
    obtain ⟨⟨_, h2⟩, h3⟩ := highest_prio_fold jobs (infinity : Time)
    obtain ⟨k, hk, hkj⟩ := hex
    apply le_antisymm
    · rcases h3 with h3 | ⟨k2, hk2, h3⟩
      · unfold highest_prio; rw [h3, ← hkj]; exact htop k hk
      · unfold highest_prio; rw [h3]; exact hmin k2 hk2
    · rw [← hkj]; exact h2 k hk
  simp [latest_start, construct, hp]

/-- Workload `L1, H2, H1`: `H1` has the minimum priority value 1 and gets infinity. -/
theorem prm_latest_start_max_priority_witness :
    Precatious_RM_IIP.latest_start Example.prm Example.H1 0 [] = infinity :=
  prm_latest_start_max_priority (Example.space 1 [Example.L1, Example.H2, Example.H1] [] [])
    [Example.L1, Example.H2, Example.H1] Example.H1 0 [] (by decide) (by decide) (by decide)

/-- C5: if every job of maximal priority is either not incomplete under `as` or has
latest arrival at most `t`, then `Precatious_RM_IIP::latest_start` returns infinity
for every job `j`. -/
theorem prm_latest_start_nothing_pending (space : State_space Time) (jobs : List (Job Time))
    (j : Job Time) (t : Time) (as : Scheduled)
    (hnone : ∀ k ∈ jobs, k.get_priority = highest_prio jobs →
      space.incomplete as k = false ∨ k.latest_arrival ≤ t) :
    latest_start (construct space jobs) j t as = infinity := by
  by_cases hj : j.get_priority = highest_prio jobs
  · simp [latest_start, construct, hj]
  · rw [prm_latest_start_eq space jobs j t as hj, select_fold_skip]
    · rfl
    · intro k hk hprio
      rcases hnone k hk hprio with h | h
      · simp [pending, h]
      · simp [pending, not_lt.mpr h]

/-- Workload `L1, H2, H1` at time 10 with `H2` (position 1) scheduled: `H1` has
arrived (latest arrival 5) and `H2` is complete, so `L1` gets infinity. -/
theorem prm_latest_start_nothing_pending_witness :
    Precatious_RM_IIP.latest_start Example.prm Example.L1 10 [1] = infinity :=
  prm_latest_start_nothing_pending
    (Example.space 1 [Example.L1, Example.H2, Example.H1] [] [])
    [Example.L1, Example.H2, Example.H1] Example.L1 10 [1] (by decide)

end

/-! ### `Critical_window_IIP` -/

section

variable {Time : Type}

open Critical_window_IIP

end

section

variable {Time : Type} [LinearOrder Time]

open Critical_window_IIP

theorem seed_step_keep (space : State_space Time) (j_i : Job Time) (t : Time)
    (as : Scheduled) (h k : Job Time)
    (huniq : k.get_task_id ≠ j_i.get_task_id → k.scheduling_window.contains t = true → k = h) :
    seed_step space j_i t as [(h.get_task_id, h)] k = [(h.get_task_id, h)] := by
  by_cases h1 : k.get_task_id ≠ j_i.get_task_id ∧ k.scheduling_window.contains t = true
  · obtain rfl := huniq h1.1 h1.2
    simp [seed_step, ijs_find, List.lookup]
  · have : ¬ (k.scheduling_window.contains t = true ∧ j_i.get_task_id ≠ k.get_task_id) :=
      fun hc => h1 ⟨fun e => hc.2 e.symm, hc.1⟩
    unfold seed_step
    simp only [Bool.and_eq_true, bne_iff_ne, ne_eq]
    rw [if_neg]
    intro hc
    exact this ⟨hc.1.1.1, hc.1.1.2⟩

theorem seed_fold_keep (space : State_space Time) (j_i : Job Time) (t : Time)
    (as : Scheduled) (h : Job Time) (l : List (Job Time))
    (huniq : ∀ k ∈ l, k.get_task_id ≠ j_i.get_task_id →
      k.scheduling_window.contains t = true → k = h) :
    l.foldl (seed_step space j_i t as) [(h.get_task_id, h)] = [(h.get_task_id, h)] := by
  induction l with
  | nil => rfl
  | cons k rest ih =>
    rw [List.foldl_cons, seed_step_keep space j_i t as h k (huniq k (List.mem_cons_self _ _))]
    exact ih (fun k2 hk2 => huniq k2 (List.mem_cons_of_mem _ hk2))

theorem seed_fold_unique (space : State_space Time) (j_i : Job Time) (t : Time)
    (as : Scheduled) (h : Job Time) (l : List (Job Time))
    (hmem : h ∈ l)
    (hother : h.get_task_id ≠ j_i.get_task_id)
    (hwin : h.scheduling_window.contains t = true)
    (hinc : space.incomplete as h = true)
    (huniq : ∀ k ∈ l, k.get_task_id ≠ j_i.get_task_id →
      k.scheduling_window.contains t = true → k = h) :
    l.foldl (seed_step space j_i t as) [] = [(h.get_task_id, h)] := by
  induction l with
  | nil => exact absurd hmem (List.not_mem_nil _)
  | cons k rest ih =>
    have hrest : ∀ k2 ∈ rest, k2.get_task_id ≠ j_i.get_task_id →
        k2.scheduling_window.contains t = true → k2 = h :=
      fun k2 hk2 => huniq k2 (List.mem_cons_of_mem _ hk2)
    rw [List.foldl_cons]
    by_cases hk : k = h
    · subst hk
      have : seed_step space j_i t as [] k = [(k.get_task_id, k)] := by
        simp [seed_step, ijs_find, List.lookup, ijs_assign, hwin, hinc, Ne.symm hother]
      rw [this]
      exact seed_fold_keep space j_i t as k rest hrest
    · have hstep : seed_step space j_i t as [] k = [] := by
        unfold seed_step
        simp only [Bool.and_eq_true, bne_iff_ne, ne_eq]
        rw [if_neg]
        intro hc
        exact hk (huniq k (List.mem_cons_self _ _) (fun e => hc.1.1.2 e.symm) hc.1.1.1)
      rw [hstep]
      rcases List.mem_cons.mp hmem with rfl | hm
      · exact absurd rfl hk
      · exact ih hm hrest

theorem extend_loop_full [Add Time] (iip : Critical_window_IIP Time) (as : Scheduled)
    (l : List (Time × Job Time)) (ijs : Ijs Time) (latest_deadline : Time)
    (h : ¬ ijs.length < n_tasks_minus_one iip.n_tasks) :
    extend_loop iip as l ijs latest_deadline = some ijs := by
  cases l with
  | nil => rfl
  | cons it rest => simp [extend_loop, h]

theorem reduce_eq_foldr [Time_model Time] [Sub Time] (ijs : List (Job Time)) :
    reduce ijs = ijs.foldr (fun job L => min L job.get_deadline - job.maximal_cost) infinity := by
  unfold reduce
  rw [List.foldl_reverse]
  congr 1
  funext job L
  rw [std_min_eq_min]

theorem sort_by_deadline_sorted (l : List (Job Time)) :
    (sort_by_deadline l).Pairwise (fun a b => a.get_deadline ≤ b.get_deadline) := by
  haveI : IsTotal (Job Time) (fun a b => by_deadline b a = false) :=
    ⟨fun a b => by
      simp only [by_deadline, decide_eq_false_iff_not, not_lt]
      exact le_total _ _⟩
  haveI : IsTrans (Job Time) (fun a b => by_deadline b a = false) :=
    ⟨fun a b c hab hbc => by
      simp only [by_deadline, decide_eq_false_iff_not, not_lt] at *
      exact le_trans hab hbc⟩
  have h := List.sorted_insertionSort (fun a b : Job Time => by_deadline b a = false) l
  refine List.Pairwise.imp ?_ h
  intro a b hab
  simpa [by_deadline] using hab

/-- C6 (evaluation at the failing input): workload `J1, J2` (task 1) and `M1` (task 2),
candidate `J1`, time 0, nothing scheduled.  The first loop selects nothing, the second
loop selects `J2`, a job of the candidate's own task, and stops; the query returns
`20 - 2 - 2 = 16`. -/
theorem cw_extend_selects_own_task :
    Critical_window_IIP.seed Example.cw_own_task.space Example.J1 0 [] = []
    ∧ Critical_window_IIP.influencing_jobs Example.cw_own_task Example.J1 0 []
        = some [Example.J2]
    ∧ Example.J2.get_task_id = Example.J1.get_task_id
    ∧ Critical_window_IIP.latest_start Example.cw_own_task Example.J1 0 [] = some 16 := by
  decide

/-- C7: in a workload with exactly two task ids, if `h` is returned by the window
lookup at `t`, belongs to another task than `j`, has a scheduling window containing
`t`, is incomplete, and is the only looked-up job of another task whose window contains
`t`, then `Critical_window_IIP::latest_start` returns
`h.deadline - h.maximal_cost - j.maximal_cost`.  The time domain enters through `htop`:
the deadline of `h` does not exceed the infinity sentinel. -/
theorem cw_latest_start_two_tasks [Time_model Time] [Add Time] [Sub Time] [Zero Time]
    (space : State_space Time) (jobs : List (Job Time)) (j h : Job Time) (t : Time)
    (as : Scheduled)
    (htasks : count_tasks jobs = 2)
    (hmem : h ∈ space.jobs_by_win_lookup t)
    (hother : h.get_task_id ≠ j.get_task_id)
    (hwin : h.scheduling_window.contains t = true)
    (hinc : space.incomplete as h = true)
    (huniq : ∀ k ∈ space.jobs_by_win_lookup t, k.get_task_id ≠ j.get_task_id →
      k.scheduling_window.contains t = true → k = h)
    (htop : h.get_deadline ≤ infinity) :
    latest_start (construct space jobs) j t as
      = some (h.get_deadline - h.maximal_cost - j.maximal_cost) := by
  have hseed : seed (construct space jobs).space j t as = [(h.get_task_id, h)] :=
    seed_fold_unique space j t as h _ hmem hother hwin hinc huniq
  have hij : influencing_jobs (construct space jobs) j t as = some [h] := by
    unfold influencing_jobs
    simp only [hseed]
    rw [extend_loop_full]
    · rfl
    · show ¬ _ < n_tasks_minus_one (count_tasks jobs)
      rw [htasks]; simp [n_tasks_minus_one]
  have hmin : std_min (infinity : Time) h.get_deadline = h.get_deadline := by
    rw [std_min_eq_min]; exact min_eq_right htop
  simp [latest_start, hij, reduce, hmin]

/-- Workload `J1` (task 1), `Q1` (task 2), both pending at time 0: the query for `J1`
returns `30 - 5 - 2 = 23`. -/
theorem cw_latest_start_two_tasks_witness :
    Critical_window_IIP.latest_start
      (Critical_window_IIP.construct Example.two_tasks_space [Example.J1, Example.Q1])
      Example.J1 0 [] = some 23 :=
  cw_latest_start_two_tasks Example.two_tasks_space [Example.J1, Example.Q1]
    Example.J1 Example.Q1 0 [] (by decide) (by decide) (by decide) (by decide) (by decide)
    (by decide) (by decide)

/-- C9: the list returned by `influencing_jobs` is sorted by nondecreasing deadline,
and `Critical_window_IIP::latest_start` returns `L - j_i.maximal_cost`, where `L` starts
at infinity and, visiting the influencing jobs from the last one (latest deadline) down
to the first (earliest deadline), is replaced by `min(L, deadline) - maximal_cost`; the
query yields no value exactly when `influencing_jobs` aborts. -/
theorem cw_latest_start_reduce [Time_model Time] [Add Time] [Sub Time] [Zero Time]
    (iip : Critical_window_IIP Time) (j_i : Job Time) (t : Time) (as : Scheduled) :
    (∀ ijs, influencing_jobs iip j_i t as = some ijs →
        ijs.Pairwise (fun a b => a.get_deadline ≤ b.get_deadline))
    ∧ latest_start iip j_i t as
        = (influencing_jobs iip j_i t as).map
            (fun ijs => ijs.foldr (fun job L => min L job.get_deadline - job.maximal_cost)
                infinity - j_i.maximal_cost) := by
  constructor
  · intro ijs h
    unfold influencing_jobs at h
    simp only at h
    split at h
    · exact absurd h (by simp)
    · cases h
      exact sort_by_deadline_sorted _
  · unfold latest_start
    cases influencing_jobs iip j_i t as with
    | none => rfl
    | some ijs => simp [reduce_eq_foldr]

/-- Three tasks: for `J1` at time 0 the influencing jobs are `M3` (deadline 45) and
`Q3` (deadline 60), in this order, and the query returns
`min(60 - 5, 45) - 5 - 2 = 38`. -/
theorem cw_latest_start_reduce_witness :
    Critical_window_IIP.influencing_jobs Example.cw_three_tasks Example.J1 0 []
      = some [Example.M3, Example.Q3]
    ∧ [Example.M3, Example.Q3].Pairwise (fun a b => a.get_deadline ≤ b.get_deadline)
    ∧ Critical_window_IIP.latest_start Example.cw_three_tasks Example.J1 0 [] = some 38 :=
  ⟨by decide,
   (cw_latest_start_reduce Example.cw_three_tasks Example.J1 0 []).1 _ (by decide),
   by rw [(cw_latest_start_reduce Example.cw_three_tasks Example.J1 0 []).2]; decide⟩

end

/-! ### `AER_IIP`: the free-core arithmetic -/

theorem to_int_to_unsigned_mod (n : Nat) (k : Int)
    (h1 : -2147483648 ≤ (n : Int) - k) (h2 : (n : Int) - k < 2147483648) :
    to_int (to_unsigned (((n % 4294967296 : Nat) : Int) - k)) = (n : Int) - k := by
  unfold to_int to_unsigned
  split <;> omega

/-- C19: `available_cores` computes `total_cores() - busy_cores(as, t)` modulo 2^32 and
`latest_start` stores it in an `int`; whenever the mathematical difference
`num_cores - busy_cores` fits a signed 32-bit integer, the stored `free_cores` equals
that difference, so `free_cores > 0` holds exactly when `num_cores > busy_cores`. -/
theorem aer_free_cores_exact {Time : Type} (iip : AER_IIP Time) (as : Scheduled) (t : Time)
    (hlo : -2147483648 ≤ (iip.space.num_cores : Int) - iip.busy_cores as t)
    (hhi : (iip.space.num_cores : Int) - iip.busy_cores as t < 2147483648) :
    to_int (iip.available_cores as t) = (iip.space.num_cores : Int) - iip.busy_cores as t
    ∧ (to_int (iip.available_cores as t) > 0
        ↔ (iip.space.num_cores : Int) > iip.busy_cores as t) := by
  have h : to_int (iip.available_cores as t)
      = (iip.space.num_cores : Int) - iip.busy_cores as t := by
    unfold AER_IIP.available_cores AER_IIP.total_cores
    exact to_int_to_unsigned_mod _ _ hlo hhi
  refine ⟨h, ?_⟩
  rw [h]
  omega

/-- One core, workload `A1, R1`: with only the restitution job `R1` scheduled
`busy_cores` is -1 and `free_cores` is 2; with only `A1` scheduled `free_cores` is 0. -/
theorem aer_free_cores_exact_witness :
    Example.aer_one_core.busy_cores [1] 0 = -1
    ∧ to_int (Example.aer_one_core.available_cores [1] 0) = 2
    ∧ to_int (Example.aer_one_core.available_cores [0] 0) = 0 :=
  ⟨by decide,
   (aer_free_cores_exact Example.aer_one_core [1] 0 (by decide) (by decide)).1,
   (aer_free_cores_exact Example.aer_one_core [0] 0 (by decide) (by decide)).1⟩

/-! ### `Precatious_RM_IIP`: the constructor -/

section

variable {Time : Type} [LinearOrder Time]

open Precatious_RM_IIP

theorem multimap_insert_perm {α : Type} (e : Time × α) (m : List (Time × α)) :
    (multimap_insert e m).Perm (e :: m) := by
  induction m with
  | nil => exact List.Perm.refl _
  | cons x xs ih =>
    unfold multimap_insert
    split
    · exact List.Perm.refl _
    · exact (List.Perm.cons x ih).trans (List.Perm.swap e x xs)

theorem index_fold_perm (mp : Time) (jobs : List (Job Time)) (m : List (Time × Job Time)) :
    (jobs.foldl (fun hp j => if j.get_priority = mp then multimap_insert (j.latest_arrival, j) hp
        else hp) m).Perm
      (((jobs.filter (fun j => decide (j.get_priority = mp))).map
          (fun j => (j.latest_arrival, j))) ++ m) := by
  induction jobs generalizing m with
  | nil => exact List.Perm.refl _
  | cons k rest ih =>
    simp only [List.foldl_cons]
    by_cases hk : k.get_priority = mp
    · simp only [hk, if_true, List.filter_cons, decide_True, List.map_cons, List.cons_append]
      refine (ih _).trans ?_
      refine (List.Perm.append_left _ (multimap_insert_perm _ m)).trans ?_
      exact List.perm_middle
    · simp only [hk, if_false, List.filter_cons, decide_False]
      exact ih m

end

section

variable {Time : Type} [LinearOrder Time] [Time_model Time]

open Precatious_RM_IIP

/-- C17: the constructed `max_priority` is the infinity sentinel for an empty workload
and otherwise the minimum priority value over the workload (no priority exceeding the
sentinel, hypothesis `htop`); `hp_jobs` holds exactly the workload jobs of that priority,
each once, keyed by its latest arrival, in nondecreasing key order. -/
theorem prm_construct_index (space : State_space Time) (jobs : List (Job Time))
    (htop : ∀ k ∈ jobs, k.get_priority ≤ infinity) :
    (construct space ([] : List (Job Time))).max_priority = infinity
    ∧ (∀ k ∈ jobs, (construct space jobs).max_priority ≤ k.get_priority)
    ∧ (jobs = [] ∨ ∃ k ∈ jobs, (construct space jobs).max_priority = k.get_priority)
    ∧ (construct space jobs).hp_jobs.Perm
        ((jobs.filter (fun j => decide (j.get_priority = (construct space jobs).max_priority))).map
          (fun j => (j.latest_arrival, j)))
    ∧ (construct space jobs).hp_jobs.Pairwise (fun a b => a.1 ≤ b.1) := by
  obtain ⟨⟨_, h2⟩, h3⟩ := highest_prio_fold jobs (infinity : Time)
  refine ⟨rfl, h2, ?_, ?_, ?_⟩
  · by_cases hne : jobs = []
    · exact Or.inl hne
    · right
      rcases h3 with h3 | h3
      · obtain ⟨k, hk⟩ := List.exists_mem_of_ne_nil jobs hne
        refine ⟨k, hk, le_antisymm (h2 k hk) ?_⟩
        show k.get_priority ≤ highest_prio jobs
        unfold highest_prio
        rw [h3]
        exact htop k hk
      · exact h3
  · have h := index_fold_perm (highest_prio jobs) jobs []
    simpa [construct, index_hp_jobs] using h
  · exact (index_fold_sorted_find (highest_prio jobs) (fun _ => true) jobs [] List.Pairwise.nil).1

/-- Workload `L1, H2, H1`: `max_priority` is 1 and `hp_jobs` holds `H1` (latest arrival
5) before `H2` (latest arrival 15). -/
theorem prm_construct_index_witness :
    Example.prm.max_priority = 1
    ∧ Example.prm.hp_jobs = [(5, Example.H1), (15, Example.H2)]
    ∧ Example.prm.hp_jobs.Pairwise (fun a b => a.1 ≤ b.1) :=
  ⟨by decide, by decide,
   (prm_construct_index (Example.space 1 [Example.L1, Example.H2, Example.H1] [] [])
      [Example.L1, Example.H2, Example.H1] (by decide)).2.2.2.2⟩

end

/-! ### `Critical_window_IIP`: the closed form of the bound -/

section

variable {Time : Type} [LinearOrder Time] [Time_model Time] [Sub Time]

open Critical_window_IIP

theorem reduce_cons (x : Job Time) (l : List (Job Time)) :
    reduce (x :: l) = min (reduce l) x.get_deadline - x.maximal_cost := by
  rw [reduce_eq_foldr, reduce_eq_foldr]; rfl

end

section

variable {Time : Type} [LinearOrderedAddCommGroup Time]

end

section

variable {Time : Type} [LinearOrderedAddCommGroup Time] [Time_model Time]

open Critical_window_IIP

end

/-! ### `Critical_window_IIP`: independence of the enumeration order -/

section

variable {Time : Type} [LinearOrder Time]

open Critical_window_IIP

theorem initial_latest_deadline_perm [Zero Time] (e1 e2 : Ijs Time) (h : e1.Perm e2) :
    initial_latest_deadline e1 = initial_latest_deadline e2 := by
  unfold initial_latest_deadline
  refine List.Perm.foldl_eq' h ?_ 0
  intro x _ y _ z
  simp only [std_max_eq_max]
  rw [max_assoc, max_assoc, max_comm x.2.get_deadline]

theorem sort_by_deadline_perm (l : List (Job Time)) : (sort_by_deadline l).Perm l :=
  List.perm_insertionSort _ l

end

section

variable {Time : Type} [LinearOrder Time] [Time_model Time] [Sub Time]

open Critical_window_IIP

theorem reduce_swap_equal (a b : Job Time) (l : List (Job Time))
    (hd : a.get_deadline = b.get_deadline)
    (ha : ∀ y : Time, y - a.maximal_cost ≤ y) (hb : ∀ y : Time, y - b.maximal_cost ≤ y)
    (hab : ∀ y : Time, y - a.maximal_cost - b.maximal_cost = y - b.maximal_cost - a.maximal_cost) :
    reduce (a :: b :: l) = reduce (b :: a :: l) := by
  simp only [reduce_cons, hd]
  have h1 : min (min (reduce l) b.get_deadline - b.maximal_cost) b.get_deadline
      = min (reduce l) b.get_deadline - b.maximal_cost :=
    min_eq_left (le_trans (hb _) (min_le_right _ _))
  have h2 : min (min (reduce l) b.get_deadline - a.maximal_cost) b.get_deadline
      = min (reduce l) b.get_deadline - a.maximal_cost :=
    min_eq_left (le_trans (ha _) (min_le_right _ _))
  rw [h1, h2]
  exact (hab _).symm

theorem reduce_move_front (a : Job Time) (pre post : List (Job Time))
    (hd : ∀ x ∈ pre, x.get_deadline = a.get_deadline)
    (hmono : ∀ x ∈ a :: pre, ∀ y : Time, y - x.maximal_cost ≤ y)
    (hcomm : ∀ x ∈ a :: pre, ∀ z ∈ a :: pre, ∀ y : Time,
      y - x.maximal_cost - z.maximal_cost = y - z.maximal_cost - x.maximal_cost) :
    reduce (pre ++ a :: post) = reduce (a :: (pre ++ post)) := by
  induction pre with
  | nil => rfl
  | cons b pre ih =>
    have hsub : ∀ x, x ∈ a :: pre → x ∈ a :: b :: pre := by
      intro x hx
      rcases List.mem_cons.mp hx with rfl | hx
      · exact List.mem_cons_self _ _
      · exact List.mem_cons_of_mem _ (List.mem_cons_of_mem _ hx)
    have hb : b ∈ a :: b :: pre := List.mem_cons_of_mem _ (List.mem_cons_self _ _)
    have ha : a ∈ a :: b :: pre := List.mem_cons_self _ _
    have ih2 := ih (fun x hx => hd x (List.mem_cons_of_mem _ hx))
      (fun x hx => hmono x (hsub x hx))
      (fun x hx z hz => hcomm x (hsub x hx) z (hsub z hz))
    calc reduce (b :: pre ++ a :: post)
        = min (reduce (pre ++ a :: post)) b.get_deadline - b.maximal_cost := reduce_cons _ _
      _ = min (reduce (a :: (pre ++ post))) b.get_deadline - b.maximal_cost := by rw [ih2]
      _ = reduce (b :: a :: (pre ++ post)) := (reduce_cons _ _).symm
      _ = reduce (a :: b :: (pre ++ post)) :=
          reduce_swap_equal b a _ (hd b (List.mem_cons_self _ _)) (hmono b hb) (hmono a ha)
            (hcomm b hb a ha)

theorem reduce_perm_sorted (l1 l2 : List (Job Time)) (hperm : l1.Perm l2)
    (hs1 : l1.Pairwise (fun a b => a.get_deadline ≤ b.get_deadline))
    (hs2 : l2.Pairwise (fun a b => a.get_deadline ≤ b.get_deadline))
    (hmono : ∀ x ∈ l1, ∀ y : Time, y - x.maximal_cost ≤ y)
    (hcomm : ∀ x ∈ l1, ∀ z ∈ l1, ∀ y : Time,
      y - x.maximal_cost - z.maximal_cost = y - z.maximal_cost - x.maximal_cost) :
    reduce l1 = reduce l2 := by
  induction l1 generalizing l2 with
  | nil => rw [List.Perm.eq_nil hperm.symm]
  | cons a l1 ih =>
    have ha2 : a ∈ l2 := hperm.subset (List.mem_cons_self _ _)
    obtain ⟨pre, post, rfl⟩ := List.append_of_mem ha2
    have hperm2 : l1.Perm (pre ++ post) :=
      List.Perm.cons_inv (hperm.trans List.perm_middle)
    rw [List.pairwise_cons] at hs1
    have hs2' : (pre ++ post).Pairwise (fun a b => a.get_deadline ≤ b.get_deadline) := by
      rw [List.pairwise_append] at hs2 ⊢
      exact ⟨hs2.1, (List.pairwise_cons.mp hs2.2.1).2,
        fun x hx y hy => hs2.2.2 x hx y (List.mem_cons_of_mem _ hy)⟩
    have hpre : ∀ x ∈ pre, x.get_deadline = a.get_deadline := by
      intro x hx
      apply le_antisymm
      · exact (List.pairwise_append.mp hs2).2.2 x hx a (List.mem_cons_self _ _)
      · exact hs1.1 x (hperm2.symm.subset (List.mem_append_left _ hx))
    have hmem : ∀ x, x ∈ a :: pre → x ∈ a :: l1 := by
      intro x hx
      rcases List.mem_cons.mp hx with rfl | hx
      · exact List.mem_cons_self _ _
      · exact List.mem_cons_of_mem _ (hperm2.symm.subset (List.mem_append_left _ hx))
    rw [reduce_move_front a pre post hpre (fun x hx => hmono x (hmem x hx))
      (fun x hx z hz => hcomm x (hmem x hx) z (hmem z hz))]
    rw [reduce_cons, reduce_cons]
    rw [ih (pre ++ post) hperm2 hs1.2 hs2' (fun x hx => hmono x (List.mem_cons_of_mem _ hx))
      (fun x hx z hz => hcomm x (List.mem_cons_of_mem _ hx) z (List.mem_cons_of_mem _ hz))]

end

theorem withTop_sub_le (c y : WithTop ℤ) (hc : c ≠ infinity) (h0 : 0 ≤ c) : y - c ≤ y := by
  induction c using WithTop.recTopCoe with
  | top => exact absurd rfl hc
  | coe c =>
    induction y using WithTop.recTopCoe with
    | top => exact le_top
    | coe y =>
      have h0' : (0 : ℤ) ≤ c := WithTop.coe_le_coe.mp h0
      have : ((y : WithTop ℤ) - (c : WithTop ℤ)) = ((y - c : ℤ) : WithTop ℤ) := rfl
      rw [this]
      exact WithTop.coe_le_coe.mpr (by omega)

theorem withTop_sub_right_comm (a b y : WithTop ℤ) : y - a - b = y - b - a := by
  induction a using WithTop.recTopCoe with
  | top => induction b using WithTop.recTopCoe <;> induction y using WithTop.recTopCoe <;> rfl
  | coe a =>
    induction b using WithTop.recTopCoe with
    | top => induction y using WithTop.recTopCoe <;> rfl
    | coe b =>
      induction y using WithTop.recTopCoe with
      | top => rfl
      | coe y =>
        have h1 : ((y : WithTop ℤ) - (a : WithTop ℤ) - (b : WithTop ℤ))
            = ((y - a - b : ℤ) : WithTop ℤ) := rfl
        have h2 : ((y : WithTop ℤ) - (b : WithTop ℤ) - (a : WithTop ℤ))
            = ((y - b - a : ℤ) : WithTop ℤ) := rfl
        rw [h1, h2]
        congr 1
        omega

/-! ### `Critical_window_IIP`: the first loop (Seed) -/

section

variable {Time : Type}

open Critical_window_IIP

theorem ijs_find_assign (tid1 tid : Nat) (j : Job Time) (ijs : Ijs Time) :
    ijs_find (ijs_assign tid1 j ijs) tid = if tid1 = tid then some j else ijs_find ijs tid := by
  induction ijs with
  | nil =>
    by_cases h : tid1 = tid
    · simp [ijs_assign, ijs_find, List.lookup, h]
    · have h2 : (tid == tid1) = false := by simpa using Ne.symm h
      simp [ijs_assign, ijs_find, List.lookup, h, h2]
  | cons e rest ih =>
    unfold ijs_assign
    by_cases he : e.1 = tid1
    · simp only [he, if_true]
      by_cases h : tid1 = tid
      · simp [ijs_find, List.lookup, h]
      · have h2 : (tid == tid1) = false := by simpa using Ne.symm h
        have h3 : (tid == e.1) = false := by rw [he]; exact h2
        simp only [ijs_find, h, if_false]
        rw [List.lookup_cons, List.lookup_cons, h2, h3]
    · simp only [he, if_false]
      unfold ijs_find at ih ⊢
      rw [List.lookup_cons, List.lookup_cons]
      by_cases h4 : (tid == e.1) = true
      · have : tid1 ≠ tid := by
          intro h; apply he; rw [h]; exact (beq_iff_eq.mp h4).symm
        simp [h4, this]
      · simp only [Bool.not_eq_true] at h4
        rw [h4]
        exact ih

theorem ijs_assign_keys (tid : Nat) (j : Job Time) (ijs : Ijs Time) :
    (ijs_assign tid j ijs).map Prod.fst
      = if tid ∈ ijs.map Prod.fst then ijs.map Prod.fst else ijs.map Prod.fst ++ [tid] := by
  induction ijs with
  | nil => simp [ijs_assign]
  | cons e rest ih =>
    unfold ijs_assign
    by_cases he : e.1 = tid
    · simp [he]
    · have he2 : ¬ tid = e.1 := fun h => he h.symm
      simp only [he, if_false, List.map_cons, ih, List.mem_cons, he2, false_or]
      split <;> simp

theorem mem_ijs_assign (tid : Nat) (j : Job Time) (ijs : Ijs Time) (e : Nat × Job Time)
    (h : e ∈ ijs_assign tid j ijs) : e = (tid, j) ∨ e ∈ ijs := by
  induction ijs with
  | nil => left; simpa [ijs_assign] using h
  | cons x rest ih =>
    unfold ijs_assign at h
    split at h
    · rcases List.mem_cons.mp h with h | h
      · exact Or.inl h
      · exact Or.inr (List.mem_cons_of_mem _ h)
    · rcases List.mem_cons.mp h with h | h
      · exact Or.inr (h ▸ List.mem_cons_self _ _)
      · rcases ih h with h | h
        · exact Or.inl h
        · exact Or.inr (List.mem_cons_of_mem _ h)

theorem ijs_assign_wf (j : Job Time) (ijs : Ijs Time) (h : ijs_wf ijs) :
    ijs_wf (ijs_assign j.get_task_id j ijs) := by
  refine ⟨?_, ?_⟩
  · rw [ijs_assign_keys]
    split
    · exact h.1
    · rename_i hn
      exact List.Nodup.append h.1 (List.nodup_singleton _)
        (by
          intro a ha hb
          rw [List.mem_singleton] at hb
          exact hn (hb ▸ ha))
  · intro e he
    rcases mem_ijs_assign _ _ _ _ he with rfl | he
    · rfl
    · exact h.2 e he

theorem ijs_assign_length_le (tid : Nat) (j : Job Time) (ijs : Ijs Time) :
    (ijs_assign tid j ijs).length ≤ ijs.length + 1 := by
  have h := congrArg List.length (ijs_assign_keys tid j ijs)
  rw [List.length_map] at h
  rw [h]
  split <;> simp

theorem all_tasks_fold (jobs : List (Job Time)) (acc : List Nat) (hacc : acc.Nodup) :
    (jobs.foldl (fun all_tasks j => all_tasks_insert all_tasks j.get_task_id) acc).Nodup
    ∧ ∀ tid, tid ∈ jobs.foldl (fun all_tasks j => all_tasks_insert all_tasks j.get_task_id) acc
        ↔ tid ∈ acc ∨ ∃ j ∈ jobs, j.get_task_id = tid := by
  induction jobs generalizing acc with
  | nil => simp [hacc]
  | cons k rest ih =>
    simp only [List.foldl_cons]
    have hins : (all_tasks_insert acc k.get_task_id).Nodup
        ∧ ∀ tid, tid ∈ all_tasks_insert acc k.get_task_id ↔ tid ∈ acc ∨ tid = k.get_task_id := by
      unfold all_tasks_insert
      by_cases hc : k.get_task_id ∈ acc
      · have hb : acc.contains k.get_task_id = true := by simpa using hc
        rw [if_pos hb]
        refine ⟨hacc, fun tid => ⟨Or.inl, ?_⟩⟩
        rintro (h | h)
        · exact h
        · exact h ▸ hc
      · have hb : ¬ acc.contains k.get_task_id = true := by simpa using hc
        rw [if_neg hb]
        refine ⟨List.nodup_cons.mpr ⟨hc, hacc⟩, fun tid => ?_⟩
        simp only [List.mem_cons]
        tauto
    obtain ⟨h1, h2⟩ := ih _ hins.1
    refine ⟨h1, fun tid => ?_⟩
    rw [h2, hins.2]
    simp only [List.mem_cons, exists_eq_or_imp]
    constructor
    · rintro ((h | h) | h)
      · exact Or.inl h
      · exact Or.inr (Or.inl h.symm)
      · exact Or.inr (Or.inr h)
    · rintro (h | h | h)
      · exact Or.inl (Or.inl h)
      · exact Or.inl (Or.inr h.symm)
      · exact Or.inr h

theorem keys_length_le_count_tasks (jobs : List (Job Time)) (j_i : Job Time) (hj : j_i ∈ jobs)
    (keys : List Nat) (hnd : keys.Nodup)
    (hkeys : ∀ tid ∈ keys, tid ≠ j_i.get_task_id ∧ ∃ k ∈ jobs, k.get_task_id = tid) :
    keys.length ≤ count_tasks jobs - 1 := by
  obtain ⟨h1, h2⟩ := all_tasks_fold jobs [] List.nodup_nil
  have hmem : j_i.get_task_id
      ∈ jobs.foldl (fun all_tasks j => all_tasks_insert all_tasks j.get_task_id) [] :=
    (h2 _).mpr (Or.inr ⟨j_i, hj, rfl⟩)
  have hsub : keys ⊆ (jobs.foldl (fun all_tasks j => all_tasks_insert all_tasks j.get_task_id)
      []).erase j_i.get_task_id := by
    intro tid htid
    obtain ⟨hne, k, hk, hkt⟩ := hkeys tid htid
    exact (List.mem_erase_of_ne hne).mpr ((h2 tid).mpr (Or.inr ⟨k, hk, hkt⟩))
  have hle := (List.Nodup.subperm hnd hsub).length_le
  rw [List.length_erase_of_mem hmem] at hle
  exact hle

end

section

variable {Time : Type} [LinearOrder Time]

open Critical_window_IIP

theorem ijs_find_seed_step (space : State_space Time) (j_i : Job Time) (t : Time)
    (as : Scheduled) (tid : Nat) (ijs : Ijs Time) (j : Job Time) :
    ijs_find (seed_step space j_i t as ijs j) tid
      = rep_step space j_i t as tid (ijs_find ijs tid) j := by
  unfold seed_step rep_step
  by_cases hg : j.scheduling_window.contains t = true ∧ j_i.get_task_id ≠ j.get_task_id
      ∧ space.incomplete as j = true
  · obtain ⟨h1, h2, h3⟩ := hg
    by_cases htid : j.get_task_id = tid
    · subst htid
      cases hf : ijs_find ijs j.get_task_id with
      | none => simp [h1, h2, h3, hf, ijs_find_assign]
      | some r =>
        by_cases hlt : j.earliest_arrival < r.earliest_arrival
        · simp [h1, h2, h3, hf, hlt, ijs_find_assign]
        · simp [h1, h2, h3, hf, hlt]
    · simp only [htid, false_and, if_false]
      split
      · rw [ijs_find_assign]; simp [htid]
      · rfl
  · have hg2 : ¬ (j.get_task_id = tid ∧ j.scheduling_window.contains t = true
        ∧ j_i.get_task_id ≠ j.get_task_id ∧ space.incomplete as j = true
        ∧ (∀ r, ijs_find ijs tid = some r → j.earliest_arrival < r.earliest_arrival)) :=
      fun h => hg ⟨h.2.1, h.2.2.1, h.2.2.2.1⟩
    rw [if_neg hg2, if_neg]
    simp only [Bool.and_eq_true, bne_iff_ne, ne_eq]
    intro h
    exact hg ⟨h.1.1.1, h.1.1.2, h.1.2⟩

theorem ijs_find_seed_fold (space : State_space Time) (j_i : Job Time) (t : Time)
    (as : Scheduled) (tid : Nat) (l : List (Job Time)) (ijs : Ijs Time) :
    ijs_find (l.foldl (seed_step space j_i t as) ijs) tid
      = l.foldl (rep_step space j_i t as tid) (ijs_find ijs tid) := by
  induction l generalizing ijs with
  | nil => rfl
  | cons k rest ih =>
    rw [List.foldl_cons, List.foldl_cons, ih, ijs_find_seed_step]

theorem rep_fold_inv (space : State_space Time) (j_i : Job Time) (t : Time)
    (as : Scheduled) (tid : Nat) (l : List (Job Time)) :
    (l.foldl (rep_step space j_i t as tid) none = none
      ∧ ∀ k ∈ l, ¬ seed_candidate space j_i t as tid k)
    ∨ ∃ pre r post, l = pre ++ r :: post
      ∧ l.foldl (rep_step space j_i t as tid) none = some r
      ∧ seed_candidate space j_i t as tid r
      ∧ (∀ k ∈ pre, seed_candidate space j_i t as tid k →
          r.earliest_arrival < k.earliest_arrival)
      ∧ (∀ k ∈ post, seed_candidate space j_i t as tid k →
          r.earliest_arrival ≤ k.earliest_arrival) := by
  induction l using List.reverseRecOn with
  | nil => exact Or.inl ⟨rfl, fun k hk => absurd hk (List.not_mem_nil _)⟩
  | append_singleton l k ih =>
    simp only [List.foldl_append, List.foldl_cons, List.foldl_nil]
    by_cases hq : seed_candidate space j_i t as tid k
    · rcases ih with ⟨h0, hnone⟩ | ⟨pre, r, post, hl, hres, hr, hpre, hpost⟩
      · right
        refine ⟨l, k, [], rfl, ?_, hq, ?_, ?_⟩
        · rw [h0]
          unfold rep_step
          rw [if_pos]
          exact ⟨hq.1, hq.2.1, hq.2.2.1, hq.2.2.2, fun r hr => by cases hr⟩
        · intro k2 hk2 hq2; exact absurd hq2 (hnone k2 hk2)
        · intro k2 hk2; exact absurd hk2 (List.not_mem_nil _)
      · right
        rw [hres]
        by_cases hlt : k.earliest_arrival < r.earliest_arrival
        · refine ⟨l, k, [], rfl, ?_, hq, ?_, ?_⟩
          · unfold rep_step
            rw [if_pos]
            refine ⟨hq.1, hq.2.1, hq.2.2.1, hq.2.2.2, ?_⟩
            intro r2 hr2
            cases hr2
            exact hlt
          · intro k2 hk2 hq2
            rw [hl] at hk2
            rcases List.mem_append.mp hk2 with h | h
            · exact lt_trans hlt (hpre k2 h hq2)
            · rcases List.mem_cons.mp h with rfl | h
              · exact hlt
              · exact lt_of_lt_of_le hlt (hpost k2 h hq2)
          · intro k2 hk2; exact absurd hk2 (List.not_mem_nil _)
        · refine ⟨pre, r, post ++ [k], by rw [hl]; simp, ?_, hr, hpre, ?_⟩
          · unfold rep_step
            rw [if_neg]
            intro h
            exact hlt (h.2.2.2.2 r rfl)
          · intro k2 hk2 hq2
            rcases List.mem_append.mp hk2 with h | h
            · exact hpost k2 h hq2
            · rw [List.mem_singleton] at h
              subst h
              exact not_lt.mp hlt
    · have hs : ∀ b, rep_step space j_i t as tid b k = b := by
        intro b
        unfold rep_step
        rw [if_neg]
        intro h
        exact hq ⟨h.1, h.2.1, h.2.2.1, h.2.2.2.1⟩
      rw [hs]
      rcases ih with ⟨h0, hnone⟩ | ⟨pre, r, post, hl, hres, hr, hpre, hpost⟩
      · left
        refine ⟨h0, ?_⟩
        intro k2 hk2
        rcases List.mem_append.mp hk2 with h | h
        · exact hnone k2 h
        · rw [List.mem_singleton] at h; subst h; exact hq
      · right
        refine ⟨pre, r, post ++ [k], by rw [hl]; simp, hres, hr, hpre, ?_⟩
        intro k2 hk2 hq2
        rcases List.mem_append.mp hk2 with h | h
        · exact hpost k2 h hq2
        · rw [List.mem_singleton] at h; subst h; exact absurd hq2 hq

/-- C14: after the first loop of `influencing_jobs`, a task id `tid` has a representative
if and only if `tid` differs from the task id of `j_i` and some job returned by the
window lookup at `t` has task id `tid`, a scheduling window containing `t`, and is
incomplete; the representative `r` is such a job, every such job before it in lookup
order has a strictly later earliest arrival, and every such job after it has an earliest
arrival that is not earlier (minimum earliest arrival, first come among ties). -/
theorem cw_seed_representatives (space : State_space Time) (j_i : Job Time)
    (t : Time) (as : Scheduled)
    (tid : Nat) :
    ((∃ r, ijs_find (seed space j_i t as) tid = some r)
      ↔ (tid ≠ j_i.get_task_id
          ∧ ∃ k ∈ space.jobs_by_win_lookup t, k.get_task_id = tid
              ∧ k.scheduling_window.contains t = true ∧ space.incomplete as k = true))
    ∧ ∀ r, ijs_find (seed space j_i t as) tid = some r →
        ∃ pre post, space.jobs_by_win_lookup t = pre ++ r :: post
          ∧ r.get_task_id = tid ∧ r.scheduling_window.contains t = true
          ∧ space.incomplete as r = true
          ∧ (∀ k ∈ pre, k.get_task_id = tid → k.scheduling_window.contains t = true →
              space.incomplete as k = true → r.earliest_arrival < k.earliest_arrival)
          ∧ (∀ k ∈ post, k.get_task_id = tid → k.scheduling_window.contains t = true →
              space.incomplete as k = true → r.earliest_arrival ≤ k.earliest_arrival) := by
  have hfind : ijs_find (seed space j_i t as) tid
      = (space.jobs_by_win_lookup t).foldl (rep_step space j_i t as tid) none :=
    ijs_find_seed_fold space j_i t as tid _ []
  rw [hfind]
  rcases rep_fold_inv space j_i t as tid (space.jobs_by_win_lookup t) with
    ⟨h0, hnone⟩ | ⟨pre, r, post, hl, hres, hr, hpre, hpost⟩
  · rw [h0]
    refine ⟨⟨fun h => ?_, ?_⟩, fun r hr => by cases hr⟩
    · obtain ⟨r, hr⟩ := h
      cases hr
    · rintro ⟨hne, k, hk, h1, h2, h3⟩
      exact absurd ⟨h1, h2, fun e => hne (h1 ▸ e.symm), h3⟩ (hnone k hk)
  · rw [hres]
    refine ⟨⟨fun _ => ?_, fun _ => ⟨r, rfl⟩⟩, ?_⟩
    · refine ⟨fun e => hr.2.2.1 (by rw [hr.1, e]), r, ?_, hr.1, hr.2.1, hr.2.2.2⟩
      rw [hl]; simp
    · intro r2 hr2
      cases hr2
      refine ⟨pre, post, hl, hr.1, hr.2.1, hr.2.2.2, ?_, ?_⟩
      · intro k hk h1 h2 h3
        exact hpre k hk ⟨h1, h2, fun e => hr.2.2.1 (by rw [e, h1, hr.1]), h3⟩
      · intro k hk h1 h2 h3
        exact hpost k hk ⟨h1, h2, fun e => hr.2.2.1 (by rw [e, h1, hr.1]), h3⟩

/-- Lookup `J1, Sa, Sb, Sc` at time 6: the jobs `Sa` (earliest arrival 5), `Sb` and `Sc`
(earliest arrival 0) of task 2 all qualify; the representative is `Sb`. -/
theorem cw_seed_representatives_witness :
    ijs_find (seed Example.seed_space Example.J1 6 []) 2 = some Example.Sb
    ∧ ∃ pre post, Example.seed_space.jobs_by_win_lookup 6 = pre ++ Example.Sb :: post
        ∧ Example.Sb.get_task_id = 2 ∧ Example.Sb.scheduling_window.contains 6 = true
        ∧ Example.seed_space.incomplete [] Example.Sb = true
        ∧ (∀ k ∈ pre, k.get_task_id = 2 → k.scheduling_window.contains 6 = true →
            Example.seed_space.incomplete [] k = true →
            Example.Sb.earliest_arrival < k.earliest_arrival)
        ∧ (∀ k ∈ post, k.get_task_id = 2 → k.scheduling_window.contains 6 = true →
            Example.seed_space.incomplete [] k = true →
            Example.Sb.earliest_arrival ≤ k.earliest_arrival) :=
  ⟨by decide,
   (cw_seed_representatives Example.seed_space Example.J1 6 [] 2).2 Example.Sb (by decide)⟩

end

/-! ### `Critical_window_IIP`: the second loop (Extend) -/

section

variable {Time : Type} [LinearOrder Time]

open Critical_window_IIP

theorem seed_step_inv (space : State_space Time) (j_i : Job Time) (t : Time) (as : Scheduled)
    (lookup : List (Job Time)) (ijs : Ijs Time) (k : Job Time) (hk : k ∈ lookup)
    (hwf : ijs_wf ijs)
    (hkeys : ∀ e ∈ ijs, e.1 ≠ j_i.get_task_id ∧ ∃ k ∈ lookup, k.get_task_id = e.1) :
    ijs_wf (seed_step space j_i t as ijs k)
    ∧ ∀ e ∈ seed_step space j_i t as ijs k,
        e.1 ≠ j_i.get_task_id ∧ ∃ k ∈ lookup, k.get_task_id = e.1 := by
  simp only [seed_step]
  split
  · rename_i hg
    simp only [Bool.and_eq_true, bne_iff_ne, ne_eq] at hg
    refine ⟨ijs_assign_wf k ijs hwf, ?_⟩
    intro e he
    rcases mem_ijs_assign _ _ _ _ he with rfl | he
    · exact ⟨fun h => hg.1.1.2 h.symm, k, hk, rfl⟩
    · exact hkeys e he
  · exact ⟨hwf, hkeys⟩

theorem seed_fold_inv (space : State_space Time) (j_i : Job Time) (t : Time) (as : Scheduled)
    (lookup l : List (Job Time)) (hl : ∀ k ∈ l, k ∈ lookup) (ijs : Ijs Time)
    (hwf : ijs_wf ijs)
    (hkeys : ∀ e ∈ ijs, e.1 ≠ j_i.get_task_id ∧ ∃ k ∈ lookup, k.get_task_id = e.1) :
    ijs_wf (l.foldl (seed_step space j_i t as) ijs)
    ∧ ∀ e ∈ l.foldl (seed_step space j_i t as) ijs,
        e.1 ≠ j_i.get_task_id ∧ ∃ k ∈ lookup, k.get_task_id = e.1 := by
  induction l generalizing ijs with
  | nil => exact ⟨hwf, hkeys⟩
  | cons k rest ih =>
    rw [List.foldl_cons]
    obtain ⟨h1, h2⟩ := seed_step_inv space j_i t as lookup ijs k
      (hl k (List.mem_cons_self _ _)) hwf hkeys
    exact ih (fun k2 hk2 => hl k2 (List.mem_cons_of_mem _ hk2)) _ h1 h2

theorem extend_loop_cons [Add Time] (iip : Critical_window_IIP Time) (as : Scheduled)
    (it : Time × Job Time) (rest : List (Time × Job Time)) (ijs : Ijs Time)
    (latest_deadline : Time) :
    extend_loop iip as (it :: rest) ijs latest_deadline
      = if ijs.length < n_tasks_minus_one iip.n_tasks then
          if iip.space.incomplete as it.2 = true then
            if extend_latest_deadline latest_deadline ijs it + iip.max_cost < it.1 then
              some (extend_ijs ijs it)
            else
              extend_loop iip as rest (extend_ijs ijs it)
                (extend_latest_deadline latest_deadline ijs it)
          else none
        else some ijs := by
  rw [extend_loop]
  rfl

theorem extend_loop_inv [Add Time] (iip : Critical_window_IIP Time) (as : Scheduled)
    (bound : Nat) (hbound : n_tasks_minus_one iip.n_tasks ≤ bound)
    (l : List (Time × Job Time)) (ijs : Ijs Time) (latest_deadline : Time) (r : Ijs Time)
    (h : extend_loop iip as l ijs latest_deadline = some r)
    (hwf : ijs_wf ijs) (hlen : ijs.length ≤ bound) :
    ijs_wf r ∧ r.length ≤ bound := by
  induction l generalizing ijs latest_deadline with
  | nil =>
    simp only [extend_loop, Option.some.injEq] at h
    subst h
    exact ⟨hwf, hlen⟩
  | cons it rest ih =>
    rw [extend_loop_cons] at h
    by_cases hg : ijs.length < n_tasks_minus_one iip.n_tasks
    · rw [if_pos hg] at h
      by_cases hinc : iip.space.incomplete as it.2 = true
      · rw [if_pos hinc] at h
        have hwf1 : ijs_wf (extend_ijs ijs it) := by
          unfold extend_ijs
          split
          · exact ijs_assign_wf _ _ hwf
          · exact hwf
        have hlen1 : (extend_ijs ijs it).length ≤ bound := by
          unfold extend_ijs
          split
          · exact le_trans (ijs_assign_length_le _ _ _) (le_trans hg hbound)
          · exact hlen
        generalize extend_ijs ijs it = ijs1 at h hwf1 hlen1
        generalize extend_latest_deadline latest_deadline ijs it = ld1 at h
        by_cases hbr : ld1 + iip.max_cost < it.1
        · rw [if_pos hbr] at h
          cases h
          exact ⟨hwf1, hlen1⟩
        · rw [if_neg hbr] at h
          exact ih _ _ h hwf1 hlen1
      · rw [if_neg hinc] at h
        cases h
    · rw [if_neg hg] at h
      cases h
      exact ⟨hwf, hlen⟩

theorem n_tasks_minus_one_le (n : Nat) (hn : 1 ≤ n) : n_tasks_minus_one n ≤ n - 1 := by
  unfold n_tasks_minus_one
  omega

theorem ijs_find_extend_ijs_of_some (ijs : Ijs Time) (it : Time × Job Time) (tid : Nat)
    (x : Job Time) (h : ijs_find ijs tid = some x) :
    ijs_find (extend_ijs ijs it) tid = some x := by
  unfold extend_ijs
  split
  · rename_i hn
    rw [ijs_find_assign]
    by_cases ht : it.2.get_task_id = tid
    · rw [ht, h] at hn; cases hn
    · rw [if_neg ht]; exact h
  · exact h

theorem ijs_find_extend_ijs_of_none (ijs : Ijs Time) (it : Time × Job Time) (tid : Nat)
    (h : ijs_find ijs tid = none) :
    ijs_find (extend_ijs ijs it) tid = if it.2.get_task_id = tid then some it.2 else none := by
  unfold extend_ijs
  by_cases ht : it.2.get_task_id = tid
  · rw [ht, if_pos h, ijs_find_assign]
    simp
  · rw [if_neg ht]
    split
    · rw [ijs_find_assign, if_neg ht]; exact h
    · exact h

theorem extend_loop_keeps [Add Time] (iip : Critical_window_IIP Time) (as : Scheduled)
    (l : List (Time × Job Time)) (ijs : Ijs Time) (latest_deadline : Time) (r : Ijs Time)
    (h : extend_loop iip as l ijs latest_deadline = some r) (tid : Nat) (x : Job Time)
    (hx : ijs_find ijs tid = some x) :
    ijs_find r tid = some x := by
  induction l generalizing ijs latest_deadline with
  | nil =>
    simp only [extend_loop, Option.some.injEq] at h
    subst h
    exact hx
  | cons it rest ih =>
    rw [extend_loop_cons] at h
    by_cases hg : ijs.length < n_tasks_minus_one iip.n_tasks
    · rw [if_pos hg] at h
      by_cases hinc : iip.space.incomplete as it.2 = true
      · rw [if_pos hinc] at h
        have hx1 := ijs_find_extend_ijs_of_some ijs it tid x hx
        by_cases hbr : extend_latest_deadline latest_deadline ijs it + iip.max_cost < it.1
        · rw [if_pos hbr] at h
          cases h
          exact hx1
        · rw [if_neg hbr] at h
          exact ih _ _ h hx1
      · rw [if_neg hinc] at h
        cases h
    · rw [if_neg hg] at h
      cases h
      exact hx

theorem extend_loop_first [Add Time] (iip : Critical_window_IIP Time) (as : Scheduled)
    (l : List (Time × Job Time)) (ijs : Ijs Time) (latest_deadline : Time) (r : Ijs Time)
    (h : extend_loop iip as l ijs latest_deadline = some r) (tid : Nat) (x : Job Time)
    (hnone : ijs_find ijs tid = none) (hx : ijs_find r tid = some x) :
    ∃ pre k post, l = pre ++ (k, x) :: post ∧ x.get_task_id = tid
      ∧ ∀ e ∈ pre, e.2.get_task_id ≠ tid := by
  induction l generalizing ijs latest_deadline with
  | nil =>
    simp only [extend_loop, Option.some.injEq] at h
    subst h
    rw [hnone] at hx
    cases hx
  | cons it rest ih =>
    rw [extend_loop_cons] at h
    by_cases hg : ijs.length < n_tasks_minus_one iip.n_tasks
    · rw [if_pos hg] at h
      by_cases hinc : iip.space.incomplete as it.2 = true
      · rw [if_pos hinc] at h
        have hfind := ijs_find_extend_ijs_of_none ijs it tid hnone
        by_cases ht : it.2.get_task_id = tid
        · rw [if_pos ht] at hfind
          have hr : ijs_find r tid = some it.2 := by
            by_cases hbr : extend_latest_deadline latest_deadline ijs it + iip.max_cost < it.1
            · rw [if_pos hbr] at h
              cases h
              exact hfind
            · rw [if_neg hbr] at h
              exact extend_loop_keeps iip as rest _ _ r h tid it.2 hfind
          rw [hr] at hx
          cases hx
          exact ⟨[], it.1, rest, rfl, ht, fun e he => absurd he (List.not_mem_nil _)⟩
        · rw [if_neg ht] at hfind
          by_cases hbr : extend_latest_deadline latest_deadline ijs it + iip.max_cost < it.1
          · rw [if_pos hbr] at h
            cases h
            rw [hfind] at hx
            cases hx
          · rw [if_neg hbr] at h
            obtain ⟨pre, k, post, hl, hxt, hpre⟩ := ih _ _ h hfind
            refine ⟨it :: pre, k, post, by rw [hl]; rfl, hxt, ?_⟩
            intro e he
            rcases List.mem_cons.mp he with rfl | he
            · exact ht
            · exact hpre e he
      · rw [if_neg hinc] at h
        cases h
    · rw [if_neg hg] at h
      cases h
      rw [hnone] at hx
      cases hx

theorem upper_bound_eq_filter {α : Type} (t : Time) (m : List (Time × α))
    (hm : m.Pairwise (fun a b => a.1 ≤ b.1)) :
    upper_bound t m = m.filter (fun e => decide (t < e.1)) := by
  induction m with
  | nil => rfl
  | cons x xs ih =>
    rw [List.pairwise_cons] at hm
    by_cases hx : t < x.1
    · have hall : ∀ e ∈ xs, decide (t < e.1) = true := by
        intro e he
        exact decide_eq_true (lt_of_lt_of_le hx (hm.1 e he))
      have hub : upper_bound t (x :: xs) = x :: xs := by
        simp [upper_bound, List.dropWhile_cons, hx]
      rw [hub, List.filter_cons_of_pos (by simpa using hx), List.filter_eq_self.mpr hall]
    · have hub : upper_bound t (x :: xs) = upper_bound t xs := by
        simp [upper_bound, List.dropWhile_cons, hx]
      rw [hub, List.filter_cons_of_neg (by simpa using hx)]
      exact ih hm.2

end

section

variable {Time : Type} [LinearOrder Time] [Add Time]

open Critical_window_IIP

theorem extend_visits_cons (iip : Critical_window_IIP Time) (as : Scheduled)
    (it : Time × Job Time) (rest : List (Time × Job Time)) (ijs : Ijs Time)
    (latest_deadline : Time) :
    extend_visits iip as (it :: rest) ijs latest_deadline
      = if ijs.length < n_tasks_minus_one iip.n_tasks then
          if iip.space.incomplete as it.2 = true then
            ⟨it, ijs, latest_deadline, extend_ijs ijs it,
              extend_latest_deadline latest_deadline ijs it⟩ ::
            (if extend_latest_deadline latest_deadline ijs it + iip.max_cost < it.1 then []
             else
              extend_visits iip as rest (extend_ijs ijs it)
                (extend_latest_deadline latest_deadline ijs it))
          else [⟨it, ijs, latest_deadline, ijs, latest_deadline⟩]
        else [] := by
  rw [extend_visits]
  rfl

theorem extend_visits_eq_nil (iip : Critical_window_IIP Time) (as : Scheduled)
    (l : List (Time × Job Time)) (ijs : Ijs Time) (latest_deadline : Time) :
    extend_visits iip as l ijs latest_deadline = []
      ↔ l = [] ∨ ¬ ijs.length < n_tasks_minus_one iip.n_tasks := by
  cases l with
  | nil => simp [extend_visits]
  | cons it rest =>
    rw [extend_visits_cons]
    by_cases hg : ijs.length < n_tasks_minus_one iip.n_tasks
    · rw [if_pos hg]
      by_cases hinc : iip.space.incomplete as it.2 = true
      · rw [if_pos hinc]; simp [hg]
      · rw [if_neg hinc]; simp [hg]
    · rw [if_neg hg]; simp [hg]

theorem extend_visits_initial_segment (iip : Critical_window_IIP Time) (as : Scheduled)
    (l : List (Time × Job Time)) (ijs : Ijs Time) (latest_deadline : Time) :
    (extend_visits iip as l ijs latest_deadline).map Visit.entry <+: l := by
  induction l generalizing ijs latest_deadline with
  | nil => simp [extend_visits]
  | cons it rest ih =>
    rw [extend_visits_cons]
    by_cases hg : ijs.length < n_tasks_minus_one iip.n_tasks
    · rw [if_pos hg]
      by_cases hinc : iip.space.incomplete as it.2 = true
      · rw [if_pos hinc]
        by_cases hbr : extend_latest_deadline latest_deadline ijs it + iip.max_cost < it.1
        · rw [if_pos hbr]
          simp [List.prefix_cons_inj]
        · rw [if_neg hbr]
          simp only [List.map_cons]
          exact (List.prefix_cons_inj it).mpr (ih _ _)
      · rw [if_neg hinc]
        simp [List.prefix_cons_inj]
    · rw [if_neg hg]
      simp

theorem extend_visits_before (iip : Critical_window_IIP Time) (as : Scheduled)
    (l : List (Time × Job Time)) (ijs : Ijs Time) (latest_deadline : Time) :
    ∀ v ∈ extend_visits iip as l ijs latest_deadline,
      v.ijs_before.length < n_tasks_minus_one iip.n_tasks := by
  induction l generalizing ijs latest_deadline with
  | nil => simp [extend_visits]
  | cons it rest ih =>
    rw [extend_visits_cons]
    by_cases hg : ijs.length < n_tasks_minus_one iip.n_tasks
    · rw [if_pos hg]
      by_cases hinc : iip.space.incomplete as it.2 = true
      · rw [if_pos hinc]
        intro v hv
        rcases List.mem_cons.mp hv with rfl | hv
        · exact hg
        · by_cases hbr : extend_latest_deadline latest_deadline ijs it + iip.max_cost < it.1
          · rw [if_pos hbr] at hv
            exact absurd hv (List.not_mem_nil _)
          · rw [if_neg hbr] at hv
            exact ih _ _ v hv
      · rw [if_neg hinc]
        intro v hv
        rw [List.mem_singleton] at hv
        subst hv
        exact hg
    · rw [if_neg hg]
      intro v hv
      exact absurd hv (List.not_mem_nil _)

theorem extend_loop_eq_none_iff (iip : Critical_window_IIP Time) (as : Scheduled)
    (l : List (Time × Job Time)) (ijs : Ijs Time) (latest_deadline : Time) :
    extend_loop iip as l ijs latest_deadline = none
      ↔ ∃ v ∈ extend_visits iip as l ijs latest_deadline,
          iip.space.incomplete as v.entry.2 = false := by
  induction l generalizing ijs latest_deadline with
  | nil => simp [extend_loop, extend_visits]
  | cons it rest ih =>
    rw [extend_loop_cons, extend_visits_cons]
    by_cases hg : ijs.length < n_tasks_minus_one iip.n_tasks
    · rw [if_pos hg, if_pos hg]
      by_cases hinc : iip.space.incomplete as it.2 = true
      · rw [if_pos hinc, if_pos hinc]
        generalize extend_ijs ijs it = ijs1
        generalize extend_latest_deadline latest_deadline ijs it = ld1
        by_cases hbr : ld1 + iip.max_cost < it.1
        · rw [if_pos hbr, if_pos hbr]
          simp [hinc]
        · rw [if_neg hbr, if_neg hbr, ih]
          simp [hinc]
      · rw [if_neg hinc, if_neg hinc]
        simp [hinc]
    · rw [if_neg hg, if_neg hg]
      simp

theorem extend_visits_stop (iip : Critical_window_IIP Time) (as : Scheduled)
    (l : List (Time × Job Time)) (ijs : Ijs Time) (latest_deadline : Time)
    (pre : List (Visit Time)) (v : Visit Time) (post : List (Visit Time))
    (h : extend_visits iip as l ijs latest_deadline = pre ++ v :: post) :
    post = [] ↔ (v.latest_deadline_after + iip.max_cost < v.entry.1
      ∨ iip.space.incomplete as v.entry.2 = false
      ∨ ¬ v.ijs_after.length < n_tasks_minus_one iip.n_tasks
      ∨ l.length = pre.length + 1) := by
  induction l generalizing ijs latest_deadline pre with
  | nil =>
    simp only [extend_visits] at h
    exact absurd h.symm (by simp)
  | cons it rest ih =>
    rw [extend_visits_cons] at h
    by_cases hg : ijs.length < n_tasks_minus_one iip.n_tasks
    · rw [if_pos hg] at h
      by_cases hinc : iip.space.incomplete as it.2 = true
      · rw [if_pos hinc] at h
        cases pre with
        | nil =>
          simp only [List.nil_append, List.cons.injEq] at h
          obtain ⟨hv, hpost⟩ := h
          subst hv
          simp only [hinc, List.length_cons, List.length_nil, Nat.zero_add,
            Nat.add_right_cancel_iff, List.length_eq_zero, Bool.true_eq_false, false_or]
          by_cases hbr : extend_latest_deadline latest_deadline ijs it + iip.max_cost < it.1
          · rw [if_pos hbr] at hpost
            simp [hbr, hpost.symm]
          · rw [if_neg hbr] at hpost
            rw [← hpost, extend_visits_eq_nil]
            simp only [hbr, false_or]
            have hlen : rest.length + 1 = 1 ↔ rest = [] := by
              rw [Nat.add_left_eq_self, List.length_eq_zero]
            rw [hlen]
            exact or_comm
        | cons p pre =>
          simp only [List.cons_append, List.cons.injEq] at h
          obtain ⟨_, htail⟩ := h
          by_cases hbr : extend_latest_deadline latest_deadline ijs it + iip.max_cost < it.1
          · rw [if_pos hbr] at htail
            exact absurd htail (by simp)
          · rw [if_neg hbr] at htail
            rw [ih _ _ _ htail]
            simp only [List.length_cons, Nat.add_right_cancel_iff]
      · rw [if_neg hinc] at h
        cases pre with
        | nil =>
          simp only [List.nil_append, List.cons.injEq] at h
          obtain ⟨hv, hpost⟩ := h
          subst hv
          have hinc2 : iip.space.incomplete as it.2 = false := by simpa using hinc
          simp [hinc2, hpost.symm]
        | cons p pre =>
          simp only [List.cons_append, List.cons.injEq] at h
          exact absurd h.2 (by simp)
    · rw [if_neg hg] at h
      exact absurd h.symm (by simp)

theorem extend_visits_cut (iip : Critical_window_IIP Time) (as : Scheduled)
    (l : List (Time × Job Time)) (ijs : Ijs Time) (latest_deadline : Time)
    (pre : List (Visit Time)) (v : Visit Time) (post : List (Visit Time))
    (h : extend_visits iip as l ijs latest_deadline = pre ++ v :: post)
    (hinc : iip.space.incomplete as v.entry.2 = true)
    (hbreak : v.latest_deadline_after + iip.max_cost < v.entry.1) :
    post = [] ∧ ∀ later : List (Time × Job Time),
      extend_loop iip as (pre.map Visit.entry ++ v.entry :: later) ijs latest_deadline
        = some v.ijs_after := by
  induction l generalizing ijs latest_deadline pre with
  | nil =>
    simp only [extend_visits] at h
    exact absurd h.symm (by simp)
  | cons it rest ih =>
    rw [extend_visits_cons] at h
    by_cases hg : ijs.length < n_tasks_minus_one iip.n_tasks
    · rw [if_pos hg] at h
      by_cases hinc2 : iip.space.incomplete as it.2 = true
      · rw [if_pos hinc2] at h
        cases pre with
        | nil =>
          simp only [List.nil_append, List.cons.injEq] at h
          obtain ⟨hv, hpost⟩ := h
          subst hv
          simp only at hbreak
          rw [if_pos hbreak] at hpost
          refine ⟨hpost.symm, fun later => ?_⟩
          simp only [List.map_nil, List.nil_append]
          rw [extend_loop_cons, if_pos hg, if_pos hinc2, if_pos hbreak]
        | cons p pre =>
          simp only [List.cons_append, List.cons.injEq] at h
          obtain ⟨hp, htail⟩ := h
          by_cases hbr : extend_latest_deadline latest_deadline ijs it + iip.max_cost < it.1
          · rw [if_pos hbr] at htail
            exact absurd htail (by simp)
          · rw [if_neg hbr] at htail
            obtain ⟨h1, h2⟩ := ih _ _ _ htail
            refine ⟨h1, fun later => ?_⟩
            subst hp
            simp only [List.map_cons, List.cons_append]
            rw [extend_loop_cons, if_pos hg, if_pos hinc2, if_neg hbr]
            exact h2 later
      · rw [if_neg hinc2] at h
        cases pre with
        | nil =>
          simp only [List.nil_append, List.cons.injEq] at h
          obtain ⟨hv, _⟩ := h
          subst hv
          exact absurd hinc hinc2
        | cons p pre =>
          simp only [List.cons_append, List.cons.injEq] at h
          exact absurd h.2 (by simp)
    · rw [if_neg hg] at h
      exact absurd h.symm (by simp)

end

section

variable {Time : Type} [LinearOrder Time] [Add Time] [Zero Time]

open Critical_window_IIP

theorem influencing_jobs_eq (iip : Critical_window_IIP Time) (j_i : Job Time) (t : Time)
    (as : Scheduled) :
    influencing_jobs iip j_i t as
      = (query_ijs iip j_i t as).map (fun ijs => sort_by_deadline (ijs.map Prod.snd)) := by
  unfold influencing_jobs query_ijs extend_scan
  simp only
  split <;> rename_i h <;> rw [h] <;> rfl

theorem latest_start_eq_none_iff [Time_model Time] [Sub Time] (iip : Critical_window_IIP Time)
    (j_i : Job Time) (t : Time) (as : Scheduled) :
    latest_start iip j_i t as = none ↔ query_ijs iip j_i t as = none := by
  unfold latest_start
  rw [influencing_jobs_eq]
  cases query_ijs iip j_i t as <;> simp

/-- C12 (as stated, refuted): in `cw_beyond` the second loop visits the entry of `F3`
with arrival key 100 when the only representative is `Q1` (deadline 30, so that
`latest_deadline + max_cost = 35 < 100`), and assigns `F3` as the representative of
task 3.  In `cw_far` no job is pending at time 0, the entry of `M1` has key 20 beyond
`0 + 5`, `M1` is assigned all the same, and the bound is `45 - 5 - 2 = 38`. -/
theorem cw_extend_horizon_counterexample :
    query_visits Example.cw_beyond Example.J1 0 []
      = [⟨(100, Example.F3), [(2, Example.Q1)], 30,
          [(2, Example.Q1), (3, Example.F3)], 120⟩]
    ∧ (30 : WithTop ℤ) + Example.cw_beyond.max_cost < 100
    ∧ influencing_jobs Example.cw_beyond Example.J1 0 [] = some [Example.Q1, Example.F3]
    ∧ query_visits Example.cw_far Example.J1 0 []
      = [⟨(20, Example.M1), [], 0, [(2, Example.M1)], 45⟩]
    ∧ (0 : WithTop ℤ) + Example.cw_far.max_cost < 20
    ∧ latest_start Example.cw_far Example.J1 0 [] = some 38 := by
  decide

/-- C12 (amended): the horizon test is made after the body has run on an entry, with
`latest_deadline` as it is then.  If it succeeds at the visited entry `v`
(`latest_deadline + max_cost < key`), `v` is the last entry visited, the map of
representatives is the one left by `v` whatever entries follow in the index, and these
are the influencing jobs of the query: no job after `v` affects the bound. -/
theorem cw_extend_cut_off (iip : Critical_window_IIP Time) (j_i : Job Time)
    (t : Time) (as : Scheduled)
    (pre : List (Visit Time)) (v : Visit Time) (post : List (Visit Time))
    (h : query_visits iip j_i t as = pre ++ v :: post)
    (hinc : iip.space.incomplete as v.entry.2 = true)
    (hbreak : v.latest_deadline_after + iip.max_cost < v.entry.1) :
    post = []
    ∧ (∀ later : List (Time × Job Time),
        extend_loop iip as (pre.map Visit.entry ++ v.entry :: later)
          (seed iip.space j_i t as) (initial_latest_deadline (seed iip.space j_i t as))
          = some v.ijs_after)
    ∧ influencing_jobs iip j_i t as = some (sort_by_deadline (v.ijs_after.map Prod.snd)) := by
  obtain ⟨h1, h2⟩ := extend_visits_cut iip as _ _ _ pre v post h hinc hbreak
  refine ⟨h1, h2, ?_⟩
  obtain ⟨rest, hrest⟩ := extend_visits_initial_segment iip as (extend_scan iip t)
    (seed iip.space j_i t as) (initial_latest_deadline (seed iip.space j_i t as))
  have hq : query_ijs iip j_i t as = some v.ijs_after := by
    unfold query_ijs
    rw [← hrest]
    have hv : extend_visits iip as (extend_scan iip t) (seed iip.space j_i t as)
        (initial_latest_deadline (seed iip.space j_i t as)) = pre ++ v :: post := h
    rw [hv, List.map_append, List.map_cons, List.append_assoc, List.cons_append]
    exact h2 _
  rw [influencing_jobs_eq, hq]
  rfl

/-- In `cw_stop` the entry of `Q6` has key 36 and leaves `latest_deadline = 30`:
`30 + 5 < 36`, the scan stops, and `M5` (key 40, task 3) is never assigned. -/
theorem cw_extend_cut_off_witness :
    influencing_jobs Example.cw_stop Example.J1 0 [] = some [Example.Q1] :=
  (cw_extend_cut_off Example.cw_stop Example.J1 0 [] []
    ⟨(36, Example.Q6), [(2, Example.Q1)], 30, [(2, Example.Q1)], 30⟩ []
    (by decide) (by decide) (by decide)).2.2

/-- C13 (as stated, refuted): in `cw_equal` the entry with key 35 is processed with
`latest_deadline + max_cost = 30 + 5`, which is not after 35; the scan does not stop
there: the next entry, of `M5`, is visited and `M5` becomes a representative. -/
theorem cw_extend_stop_counterexample :
    query_visits Example.cw_equal Example.J1 0 []
      = [⟨(35, Example.Q5), [(2, Example.Q1)], 30, [(2, Example.Q1)], 30⟩,
         ⟨(40, Example.M5), [(2, Example.Q1)], 30,
           [(2, Example.Q1), (3, Example.M5)], 70⟩]
    ∧ (30 : WithTop ℤ) + Example.cw_equal.max_cost ≤ 35
    ∧ influencing_jobs Example.cw_equal Example.J1 0 [] = some [Example.Q1, Example.M5] := by
  decide

/-- C13 (amended): after the entry of the visit `v` has been processed, no later entry is
visited if and only if `latest_deadline + max_cost < key` holds strictly (the comparison
is against the key of the index entry), or the assertion failed at `v`, or `n_tasks - 1`
tasks are represented, or the index has no further entry.  With
`latest_deadline + max_cost = key` the scan goes on. -/
theorem cw_extend_stop_condition (iip : Critical_window_IIP Time) (j_i : Job Time)
    (t : Time) (as : Scheduled)
    (pre : List (Visit Time)) (v : Visit Time) (post : List (Visit Time))
    (h : query_visits iip j_i t as = pre ++ v :: post) :
    post = [] ↔ (v.latest_deadline_after + iip.max_cost < v.entry.1
      ∨ iip.space.incomplete as v.entry.2 = false
      ∨ ¬ v.ijs_after.length < n_tasks_minus_one iip.n_tasks
      ∨ (extend_scan iip t).length = pre.length + 1) :=
  extend_visits_stop iip as _ _ _ pre v post h

/-- In `cw_stop` the only visit is that of `Q6` (key 36): one of the stop conditions
holds after it (here the first, `30 + 5 < 36`). -/
theorem cw_extend_stop_condition_witness :
    (30 : WithTop ℤ) + Example.cw_stop.max_cost < 36
    ∨ Example.cw_stop.space.incomplete [] Example.Q6 = false
    ∨ ¬ [(2, Example.Q1)].length < n_tasks_minus_one Example.cw_stop.n_tasks
    ∨ (extend_scan Example.cw_stop 0).length = 0 + 1 :=
  (cw_extend_stop_condition Example.cw_stop Example.J1 0 [] []
    ⟨(36, Example.Q6), [(2, Example.Q1)], 30, [(2, Example.Q1)], 30⟩ []
    (by decide)).mp rfl

/-- C15: the second loop iterates over the index entries with key strictly greater than
`t`, in index order (for a key-ordered index); the visited entries are an initial
segment of them, each visited when fewer than `n_tasks - 1` (as computed in `size_t`)
tasks are represented; a representative chosen by the first loop is still the
representative of its task at the end; and a representative `x` of a task the first loop
left unrepresented is the first job of that task among the scanned entries. -/
theorem cw_extend_scan_order (iip : Critical_window_IIP Time) (j_i : Job Time)
    (t : Time) (as : Scheduled) :
    (iip.space.jobs_by_earliest_arrival.Pairwise (fun a b => a.1 ≤ b.1) →
      extend_scan iip t
        = iip.space.jobs_by_earliest_arrival.filter (fun e => decide (t < e.1)))
    ∧ (query_visits iip j_i t as).map Visit.entry <+: extend_scan iip t
    ∧ (∀ v ∈ query_visits iip j_i t as,
        v.ijs_before.length < n_tasks_minus_one iip.n_tasks)
    ∧ (∀ r, query_ijs iip j_i t as = some r → ∀ (tid : Nat) (x : Job Time),
        ijs_find (seed iip.space j_i t as) tid = some x → ijs_find r tid = some x)
    ∧ (∀ r, query_ijs iip j_i t as = some r → ∀ (tid : Nat) (x : Job Time),
        ijs_find (seed iip.space j_i t as) tid = none → ijs_find r tid = some x →
        ∃ pre k post, extend_scan iip t = pre ++ (k, x) :: post ∧ x.get_task_id = tid
          ∧ ∀ e ∈ pre, e.2.get_task_id ≠ tid) :=
  ⟨fun hs => upper_bound_eq_filter t _ hs,
   extend_visits_initial_segment iip as _ _ _,
   extend_visits_before iip as _ _ _,
   fun r hr tid x hx => extend_loop_keeps iip as _ _ _ r hr tid x hx,
   fun r hr tid x hnone hx => extend_loop_first iip as _ _ _ r hr tid x hnone hx⟩

/-- Three tasks: the first loop selects `Q3` for task 2, the second loop adds `M3`, the
first job of task 3 among the entries after time 0. -/
theorem cw_extend_scan_order_witness :
    query_ijs Example.cw_three_tasks Example.J1 0 []
      = some [(2, Example.Q3), (3, Example.M3)]
    ∧ ∃ pre k post, extend_scan Example.cw_three_tasks 0 = pre ++ (k, Example.M3) :: post
        ∧ Example.M3.get_task_id = 3 ∧ ∀ e ∈ pre, e.2.get_task_id ≠ 3 :=
  ⟨by decide,
   (cw_extend_scan_order Example.cw_three_tasks Example.J1 0 []).2.2.2.2
     [(2, Example.Q3), (3, Example.M3)] (by decide) 3 Example.M3
     (by decide) (by decide)⟩

/-- C16: `Critical_window_IIP::latest_start` yields no value if and only if the second
loop visits an entry whose job is not incomplete (jobs seen by the first loop only play
no part); in particular, with a key-ordered index, it returns a value whenever every
index entry with key strictly after `t` has an incomplete job. -/
theorem cw_latest_start_abort [Time_model Time] [Sub Time] (iip : Critical_window_IIP Time)
    (j_i : Job Time) (t : Time) (as : Scheduled) :
    (latest_start iip j_i t as = none
      ↔ ∃ v ∈ query_visits iip j_i t as, iip.space.incomplete as v.entry.2 = false)
    ∧ (iip.space.jobs_by_earliest_arrival.Pairwise (fun a b => a.1 ≤ b.1) →
        (∀ e ∈ iip.space.jobs_by_earliest_arrival, t < e.1 →
          iip.space.incomplete as e.2 = true) →
        ∃ v, latest_start iip j_i t as = some v) := by
  have hiff : latest_start iip j_i t as = none
      ↔ ∃ v ∈ query_visits iip j_i t as, iip.space.incomplete as v.entry.2 = false := by
    rw [latest_start_eq_none_iff]
    exact extend_loop_eq_none_iff iip as _ _ _
  refine ⟨hiff, ?_⟩
  intro hsorted hpre
  cases hls : latest_start iip j_i t as with
  | some v => exact ⟨v, rfl⟩
  | none =>
    exfalso
    obtain ⟨v, hv, hinc⟩ := hiff.mp hls
    have hmem : v.entry ∈ extend_scan iip t :=
      (extend_visits_initial_segment iip as _ _ _).subset (List.mem_map_of_mem _ hv)
    unfold extend_scan at hmem
    rw [upper_bound_eq_filter t _ hsorted, List.mem_filter] at hmem
    have := hpre v.entry hmem.1 (by simpa using hmem.2)
    rw [this] at hinc
    cases hinc

/-- Three tasks: with `M3` (position 2) already scheduled the second loop meets its
entry and the query aborts; with nothing scheduled it returns a value. -/
theorem cw_latest_start_abort_witness :
    latest_start Example.cw_three_tasks Example.J1 0 [2] = none
    ∧ ∃ v, latest_start Example.cw_three_tasks Example.J1 0 [] = some v :=
  ⟨(cw_latest_start_abort Example.cw_three_tasks Example.J1 0 [2]).1.mpr (by decide),
   (cw_latest_start_abort Example.cw_three_tasks Example.J1 0 []).2 (by decide) (by decide)⟩

/-- C20: for a candidate `j_i` of the workload and a window lookup that returns workload
jobs only, `n_tasks` is at least 1, the jobs returned by `influencing_jobs` have
pairwise distinct task ids, and there are at most `n_tasks - 1` of them. -/
theorem cw_influencing_jobs_distinct (space : State_space Time) (jobs : List (Job Time))
    (j_i : Job Time) (t : Time) (as : Scheduled) (l : List (Job Time))
    (hj : j_i ∈ jobs)
    (hwin : ∀ k ∈ space.jobs_by_win_lookup t, k ∈ jobs)
    (hl : influencing_jobs (construct space jobs) j_i t as = some l) :
    1 ≤ (construct space jobs).n_tasks
    ∧ (l.map Job.get_task_id).Nodup
    ∧ l.length ≤ (construct space jobs).n_tasks - 1 := by
  have hseed := seed_fold_inv space j_i t as (space.jobs_by_win_lookup t)
    (space.jobs_by_win_lookup t) (fun k hk => hk) []
    ⟨List.nodup_nil, fun e he => absurd he (List.not_mem_nil _)⟩
    (fun e he => absurd he (List.not_mem_nil _))
  have hseedlen : (seed space j_i t as).length ≤ count_tasks jobs - 1 := by
    have h := keys_length_le_count_tasks jobs j_i hj ((seed space j_i t as).map Prod.fst)
      hseed.1.1 (by
        intro tid htid
        obtain ⟨e, he, rfl⟩ := List.mem_map.mp htid
        obtain ⟨h1, k, hk, h2⟩ := hseed.2 e he
        exact ⟨h1, k, hwin k hk, h2⟩)
    rwa [List.length_map] at h
  have hn : 1 ≤ count_tasks jobs := by
    obtain ⟨h1, h2⟩ := all_tasks_fold jobs [] List.nodup_nil
    have hmem := (h2 j_i.get_task_id).mpr (Or.inr ⟨j_i, hj, rfl⟩)
    exact List.length_pos_of_mem hmem
  unfold influencing_jobs at hl
  simp only at hl
  split at hl
  · cases hl
  · rename_i r hr
    cases hl
    obtain ⟨hwf, hlen⟩ := extend_loop_inv (construct space jobs) as (count_tasks jobs - 1)
      (n_tasks_minus_one_le _ hn) _ _ _ r hr hseed.1 hseedlen
    refine ⟨hn, ?_, ?_⟩
    · have hp : ((sort_by_deadline (r.map Prod.snd)).map Job.get_task_id).Perm
          (r.map Prod.fst) := by
        refine ((sort_by_deadline_perm _).map _).trans ?_
        rw [List.map_map]
        apply List.Perm.of_eq
        apply List.map_congr_left
        intro e he
        exact hwf.2 e he
      exact hp.nodup_iff.mpr hwf.1
    · have : (sort_by_deadline (r.map Prod.snd)).length = r.length := by
        rw [(sort_by_deadline_perm _).length_eq, List.length_map]
      rw [this]
      exact hlen

/-- Three tasks: the influencing jobs of `J1` are `M3` and `Q3`, of tasks 3 and 2. -/
theorem cw_influencing_jobs_distinct_witness :
    influencing_jobs Example.cw_three_tasks Example.J1 0 [] = some [Example.M3, Example.Q3]
    ∧ 1 ≤ Example.cw_three_tasks.n_tasks
    ∧ ([Example.M3, Example.Q3].map Job.get_task_id).Nodup
    ∧ [Example.M3, Example.Q3].length ≤ Example.cw_three_tasks.n_tasks - 1 :=
  ⟨by decide,
   cw_influencing_jobs_distinct
     (Example.space 1 [Example.J1, Example.Q3, Example.M3] [Example.J1, Example.Q3]
      [(0, Example.J1), (0, Example.Q3), (20, Example.M3)])
     [Example.J1, Example.Q3, Example.M3] Example.J1 0 [] [Example.M3, Example.Q3]
     (by decide) (by decide) (by decide)⟩

end

/-! ### `Critical_window_IIP`: the values a query can return -/

section

variable {Time : Type} [LinearOrder Time] [Time_model Time] [Add Time] [Sub Time] [Zero Time]

open Critical_window_IIP

theorem latest_start_eq_of_query_ijs (iip : Critical_window_IIP Time) (j : Job Time) (t : Time)
    (as : Scheduled) :
    latest_start iip j t as
      = (query_ijs iip j t as).map
          (fun ijs => reduce (sort_by_deadline (ijs.map Prod.snd)) - j.maximal_cost) := by
  unfold latest_start
  rw [influencing_jobs_eq]
  cases query_ijs iip j t as <;> rfl

/-- C11 (as stated, refuted): over the rounding time domain, with representatives `K2`
and `K3` of equal deadline 100 and nonnegative maximal costs 1 and 90, the arrangement
`K2, K3` gives `(100 - 90) - 1 = 9` and the arrangement `K3, K2` gives
`(100 - 1) - 90 = 100 - 90 = 10`, since `100 - 1` rounds to 100: two admissible runs of
the same query return different values. -/
theorem cw_order_dependent_counterexample :
    (∀ k ∈ [Example.K1, Example.K2, Example.K3], (0 : Coarse) ≤ k.maximal_cost)
    ∧ latest_start_outcome Example.cw_coarse Example.K1 ⟨0⟩ [] (some ⟨9⟩)
    ∧ latest_start_outcome Example.cw_coarse Example.K1 ⟨0⟩ [] (some ⟨10⟩)
    ∧ (some (⟨9⟩ : Coarse)) ≠ some ⟨10⟩ :=
  ⟨by decide,
   ⟨[(2, Example.K2), (3, Example.K3)], by decide,
     Or.inr ⟨[(2, Example.K2), (3, Example.K3)], [Example.K2, Example.K3],
       by decide, by decide, by decide, by decide⟩⟩,
   ⟨[(2, Example.K2), (3, Example.K3)], by decide,
     Or.inr ⟨[(2, Example.K2), (3, Example.K3)], [Example.K3, Example.K2],
       by decide, by decide, by decide, by decide⟩⟩,
   by decide⟩

/-- C11 (amended): when subtracting the maximal cost of a representative never increases
a value (nonnegative costs) and subtractions of maximal costs of representatives commute
(exact time arithmetic), a Critical Window query has exactly one value it can return,
whatever the enumeration order of the map of representatives and whatever order
`std::sort` gives to representatives of equal deadline: the value of `latest_start` is
admissible, and any two admissible values are equal. -/
theorem cw_latest_start_order_independent (iip : Critical_window_IIP Time) (j : Job Time)
    (t : Time) (as : Scheduled)
    (hmono : ∀ ijs, query_ijs iip j t as = some ijs → ∀ e ∈ ijs, ∀ y : Time,
      y - e.2.maximal_cost ≤ y)
    (hcomm : ∀ ijs, query_ijs iip j t as = some ijs → ∀ e ∈ ijs, ∀ e2 ∈ ijs, ∀ y : Time,
      y - e.2.maximal_cost - e2.2.maximal_cost = y - e2.2.maximal_cost - e.2.maximal_cost) :
    latest_start_outcome iip j t as (latest_start iip j t as)
    ∧ ∀ v1 v2, latest_start_outcome iip j t as v1 → latest_start_outcome iip j t as v2 →
        v1 = v2 := by
  have huniq : ∀ v, latest_start_outcome iip j t as v → v = latest_start iip j t as := by
    rintro v ⟨e1, he1, h⟩
    rw [initial_latest_deadline_perm e1 _ he1] at h
    rw [latest_start_eq_of_query_ijs]
    rcases h with ⟨hnone, hv⟩ | ⟨ijs, l, hsome, hperm, hsorted, hv⟩
    · have hq : query_ijs iip j t as = none := hnone
      rw [hq, hv]; rfl
    · have hq : query_ijs iip j t as = some ijs := hsome
      rw [hq, hv]
      simp only [Option.map_some']
      congr 2
      apply reduce_perm_sorted l _ (hperm.trans (sort_by_deadline_perm _).symm) hsorted
        (sort_by_deadline_sorted _)
      · intro x hx y
        obtain ⟨e, he, rfl⟩ := List.mem_map.mp (hperm.subset hx)
        exact hmono ijs hq e he y
      · intro x hx z hz y
        obtain ⟨e, he, rfl⟩ := List.mem_map.mp (hperm.subset hx)
        obtain ⟨e2, he2, rfl⟩ := List.mem_map.mp (hperm.subset hz)
        exact hcomm ijs hq e he e2 he2 y
  refine ⟨?_, fun v1 v2 h1 h2 => (huniq v1 h1).trans (huniq v2 h2).symm⟩
  refine ⟨seed iip.space j t as, List.Perm.refl _, ?_⟩
  rw [latest_start_eq_of_query_ijs]
  cases hq : query_ijs iip j t as with
  | none => exact Or.inl ⟨hq, rfl⟩
  | some ijs =>
    exact Or.inr ⟨ijs, sort_by_deadline (ijs.map Prod.snd), hq, sort_by_deadline_perm _,
      sort_by_deadline_sorted _, rfl⟩

/-- Over the integers extended by a top element, representatives `T2` and `T3` have the
same deadline 30 and maximal costs 5 and 4: the arrangement `T3, T2` (with the map
enumerated as `T3, T2`) gives `30 - 5 - 4 - 2 = 19`, and no run gives another value. -/
theorem cw_latest_start_order_independent_witness :
    latest_start_outcome Example.cw_tie Example.J1 0 [] (some 19)
    ∧ ∀ v1 v2, latest_start_outcome Example.cw_tie Example.J1 0 [] v1 →
        latest_start_outcome Example.cw_tie Example.J1 0 [] v2 → v1 = v2 :=
  ⟨⟨[(3, Example.T3), (2, Example.T2)], by decide,
     Or.inr ⟨[(2, Example.T2), (3, Example.T3)], [Example.T3, Example.T2],
       by decide, by decide, by decide, by decide⟩⟩,
   (cw_latest_start_order_independent Example.cw_tie Example.J1 0 []
      (fun ijs hq e he y => withTop_sub_le _ y
        (by
          have h : ijs = [(2, Example.T2), (3, Example.T3)] :=
            Option.some.inj (hq.symm.trans (by decide))
          subst h
          revert e; decide)
        (by
          have h : ijs = [(2, Example.T2), (3, Example.T3)] :=
            Option.some.inj (hq.symm.trans (by decide))
          subst h
          revert e; decide))
      (fun _ _ _ _ _ _ y => withTop_sub_right_comm _ _ y)).2⟩

end

end Uniproc

end NP
